import Mathlib

/-!
A verification development for the reuse-distance based GPU cache model
(tue-es/gpu-cache-model).  Each C++ component is embedded shallowly as an
executable Lean definition, and the documented properties of the model are
proved or refuted against these definitions.

Source files embedded here:
* `src/model/tree.h`            — the partial sum-hierarchy stack tree
* `src/model/associativity.cpp` — the cache-line address to set mapping
* `src/model/model.h`           — `Access`, `Settings`, `Thread`, `Pool`, `Requests`
* `src/model/scheduler.cpp`     — warp/block/core assignment and coalescing
* `src/model/reusedistance.cpp` — the reuse-distance engine
* `src/model/io.cpp`            — the miss-rate classifier (`output_miss_rate`)

Machine integers: the C++ code uses `unsigned` / `unsigned long` but never
relies on wrap-around in the quantities modelled here, so they are embedded
as `ℕ`; the one place the code truncates (`std::set<unsigned>` holding an
`unsigned long` address in `Requests`) is modelled with an explicit `% 2^32`.
-/

namespace GpuCache

/-- `#define INF 99999999` (model.h). -/
def INF : ℕ := 99999999

/-- `#define STACK_EXTRA_SIZE 256` (model.h). -/
def STACK_EXTRA_SIZE : ℕ := 256

/-- `2^32`, the modulus of C++ `unsigned`. -/
def U32 : ℕ := 4294967296

/-! ### Association-list helpers

The C++ code uses `std::map` / `std::unordered_map` with `operator[]`
defaulting to `0` (for counters) or to an empty vector (for request queues).
They are embedded as association lists with a defaulted lookup. -/

/-- Defaulted lookup in an association list (`map[k]` read). -/
def lookupD (l : List (ℕ × ℕ)) (k d : ℕ) : ℕ :=
  match l.find? (fun p => p.1 == k) with
  | some p => p.2
  | none => d

/-- Write `m[k] = v` in an association list. -/
def setKey (l : List (ℕ × ℕ)) (k v : ℕ) : List (ℕ × ℕ) :=
  match l with
  | [] => [(k, v)]
  | p :: rest => if p.1 = k then (k, v) :: rest else p :: setKey rest k v

/-- `m[k]++` with `operator[]` default `0` (the histogram update
`if (!(distances[distance])) distances[distance] = 0; distances[distance]++;`
of reusedistance.cpp). -/
def bump (l : List (ℕ × ℕ)) (k : ℕ) : List (ℕ × ℕ) :=
  match l with
  | [] => [(k, 1)]
  | p :: rest => if p.1 = k then (k, p.2 + 1) :: rest else p :: bump rest k

/-- Increment entry `i` of a vector of counters (`v[i]++`). -/
def incAt (l : List ℕ) (i : ℕ) : List ℕ :=
  l.set i (l.getD i 0 + 1)

/-! ## The stack tree (`src/model/tree.h`)

The C++ `Node` has fields `left`, `right`, `range_b`, `value`; a node with
`left == 0` is a leaf.  The raw-pointer tree is embedded as an inductive. -/

inductive Node where
  | leaf (range_b : ℕ) (value : ℕ)
  | inner (range_b : ℕ) (value : ℕ) (left : Node) (right : Node)
deriving DecidableEq, Repr

instance : Inhabited Node := ⟨Node.leaf 0 0⟩

/-- Field accessor `node->range_b`. -/
def Node.range_b : Node → ℕ
  | .leaf b _ => b
  | .inner b _ _ _ => b

/-- Field accessor `node->value`. -/
def Node.value : Node → ℕ
  | .leaf _ v => v
  | .inner _ v _ _ => v

/-- `Tree::fill_tree(start, size, level)` builds `Node(start+size-1, 0)` and,
for `size > 1`, recurses with `CEIL_DIV(size,2) = (size+1)/2` on the left and
`FLOOR_DIV(size,2) = size/2` on the right (the C macros compute these values
through `float` division, which is exact in the sizes the model uses).
The structural `fuel` argument makes the recursion Lean-structural; any
`fuel ≥ size` yields the same tree (`fillTreeAux_congr`). -/
def fillTreeAux : ℕ → ℕ → ℕ → Node
  | 0, start, size => .leaf (start + size - 1) 0
  | fuel + 1, start, size =>
    if size ≤ 1 then .leaf (start + size - 1) 0
    else
      .inner (start + size - 1) 0
        (fillTreeAux fuel start ((size + 1) / 2))
        (fillTreeAux fuel (start + (size + 1) / 2) (size / 2))

/-- `fill_tree(start, size, 0)`. -/
def fillTree (start size : ℕ) : Node := fillTreeAux size start size

/-- `Tree(size)` — the constructor calls `fill_tree(0, _size, 0)`. -/
def mkTree (size : ℕ) : Node := fillTree 0 size

/-- `Tree::count(target)`: descend while the node has children and non-zero
`value`; go right when `target > left->range_b`, otherwise accumulate
`right->value` and go left. -/
def Node.count : Node → ℕ → ℕ
  | .leaf _ _, _ => 0
  | .inner _ v l r, target =>
    if v = 0 then 0
    else if l.range_b < target then r.count target
    else r.value + l.count target

/-- `Tree::set(target)`: descend to the leaf, incrementing `value` at every
internal node; at the leaf write `value = 1`. -/
def Node.set : Node → ℕ → Node
  | .leaf b _, _ => .leaf b 1
  | .inner b v l r, target =>
    if l.range_b < target then .inner b (v + 1) l (r.set target)
    else .inner b (v + 1) (l.set target) r

/-- `Tree::unset(target)`: descend to the leaf, decrementing `value` at every
internal node; at the leaf write `value = 0`. -/
def Node.unset : Node → ℕ → Node
  | .leaf b _, _ => .leaf b 0
  | .inner b v l r, target =>
    if l.range_b < target then .inner b (v - 1) l (r.unset target)
    else .inner b (v - 1) (l.unset target) r

/-! ### Abstraction: leaves of a tree

`leafVal t i` is the value of the leaf whose `range_b` is `i` (leaves built by
`fill_tree` carry their own index as `range_b`), and `leafSum` is the sum of
all leaf values.  `Good t start size` captures the shape invariant of a tree
built by `fill_tree(start, size, _)` and maintained by `set`/`unset`:
leaf values are bits, every internal `value` is the sum of its subtree's
leaves, and `range_b` fields are as constructed. -/

def Node.leafSum : Node → ℕ
  | .leaf _ v => v
  | .inner _ _ l r => l.leafSum + r.leafSum

def Node.leafVal : Node → ℕ → ℕ
  | .leaf b v, i => if b = i then v else 0
  | .inner _ _ l r, i => l.leafVal i + r.leafVal i

inductive Good : Node → ℕ → ℕ → Prop where
  | leaf (start v : ℕ) (hv : v ≤ 1) : Good (.leaf start v) start 1
  | inner (start size : ℕ) (l r : Node) (hsize : 2 ≤ size)
      (hl : Good l start ((size + 1) / 2))
      (hr : Good r (start + (size + 1) / 2) (size / 2)) :
      Good (.inner (start + size - 1) (l.leafSum + r.leafSum) l r) start size

/-! ### Operation sequences on a stack tree

`reuse_distance` interleaves `set`/`unset` calls on the per-set trees under
the documented contract (`set` only on a `0`-leaf, `unset` only on a
`1`-leaf).  `validOpsB` checks that contract. -/

inductive Op where
  | set (i : ℕ)
  | unset (i : ℕ)
deriving DecidableEq, Repr

def applyOp (t : Node) : Op → Node
  | .set i => t.set i
  | .unset i => t.unset i

def applyOps (t : Node) : List Op → Node
  | [] => t
  | op :: rest => applyOps (applyOp t op) rest

/-- Validity of an operation sequence on a tree with index space
`[0, size)`: `set` targets a `0`-leaf, `unset` targets a `1`-leaf. -/
def validOpsB (t : Node) (size : ℕ) : List Op → Bool
  | [] => true
  | .set i :: rest =>
    decide (i < size) && decide (t.leafVal i = 0) && validOpsB (t.set i) size rest
  | .unset i :: rest =>
    decide (i < size) && decide (t.leafVal i = 1) && validOpsB (t.unset i) size rest

/-! ## Cache-line address to set mapping (`src/model/associativity.cpp`)

`MAPPING_TYPE` is `2` (the Fermi hash).  The function first extracts the 32
little-endian bits of `line_addr` (`bits[i] = (line_addr >> i) & 1`), then
computes `set = (b01234 XOR b678AC) + bits[5]*32` and returns
`set % num_sets`.  The `addr` and `cache_bytes` parameters are unused in this
mapping mode but kept for signature fidelity. -/

/-- `bits[i]` of the loop in `line_addr_to_set`. -/
def lineBit (line_addr i : ℕ) : ℕ := line_addr / 2 ^ i % 2

def line_addr_to_set (line_addr addr num_sets cache_bytes : ℕ) : ℕ :=
  let b01234 := lineBit line_addr 0 + lineBit line_addr 1 * 2 +
    lineBit line_addr 2 * 4 + lineBit line_addr 3 * 8 + lineBit line_addr 4 * 16
  let b678AC := lineBit line_addr 6 + lineBit line_addr 7 * 2 +
    lineBit line_addr 8 * 4 + lineBit line_addr 10 * 8 + lineBit line_addr 12 * 16
  (Nat.xor b01234 b678AC + lineBit line_addr 5 * 32) % num_sets

/-! ## Data structures of `src/model/model.h` -/

/-- `struct Access` (model.h). -/
structure Access where
  direction : ℕ
  address : ℕ
  width : ℕ
  bytes : ℕ
  end_address : ℕ
deriving DecidableEq, Repr

instance : Inhabited Access := ⟨⟨0, 0, 0, 0, 0⟩⟩

/-- `struct Settings` (model.h). -/
structure Settings where
  line_size : ℕ
  cache_bytes : ℕ
  cache_lines : ℕ
  cache_ways : ℕ
  cache_sets : ℕ
  num_mshr : ℕ
  num_cores : ℕ
  warp_size : ℕ
  max_active_threads : ℕ
  max_active_blocks : ℕ
  mem_latency : ℕ
  mem_latency_stddev : ℕ
deriving DecidableEq, Repr

/-- `struct Request` (model.h). -/
structure Request where
  addr : ℕ
  set : ℕ
deriving DecidableEq, Repr

/-- `class Thread` (model.h): the program counter, the ordered access list,
and the warp/block ids (`INF` until assigned through `set_warp`/`set_block`).
-/
structure Thread where
  pc : ℕ
  accesses : List Access
  warpid : ℕ
  blockid : ℕ
deriving DecidableEq, Repr

/-- `Thread()` constructor. -/
def Thread.init : Thread := ⟨0, [], INF, INF⟩

instance : Inhabited Thread := ⟨Thread.init⟩

/-- `Thread::is_done`. -/
def Thread.is_done (t : Thread) : Bool := t.pc == t.accesses.length

/-- `Thread::schedule`: take the next access and increment the program
counter (the C++ asserts `pc-1 < accesses.size()`). -/
def Thread.schedule (t : Thread) : Access × Thread :=
  (t.accesses.getD t.pc default, { t with pc := t.pc + 1 })

/-- `Thread::unschedule`: put back the program counter (the C++ asserts
`pc > 0`). -/
def Thread.unschedule (t : Thread) : Thread := { t with pc := t.pc - 1 }

/-- `Thread::get_bytes`. -/
def Thread.get_bytes (t : Thread) : ℕ :=
  if t.pc = t.accesses.length then 1 else (t.accesses.getD t.pc default).bytes

/-- `Thread::reset`. -/
def Thread.reset (t : Thread) : Thread := { t with pc := 0 }

/-- `Thread::set_warp` (the C++ asserts `warpid == INF` beforehand). -/
def Thread.set_warp (t : Thread) (w : ℕ) : Thread := { t with warpid := w }

/-- `Thread::set_block` (the C++ asserts `blockid == INF` beforehand). -/
def Thread.set_block (t : Thread) (b : ℕ) : Thread := { t with blockid := b }

/-! ## `class Requests` (model.h)

`request_list` is a `std::map<unsigned, std::vector<Request>>` keyed by
arrival time; `unique_requests` is a `std::set<unsigned>` of line addresses.
Note the narrowing: the `unsigned long` address is truncated to `unsigned`
when inserted into `unique_requests`, modelled by `% U32`. -/

structure Requests where
  request_list : List (ℕ × List Request)
  unique_requests : List ℕ
deriving DecidableEq, Repr

/-- `Requests()` constructor. -/
def Requests.init : Requests := ⟨[], []⟩

instance : Inhabited Requests := ⟨Requests.init⟩

/-- Defaulted lookup of `request_list[t]` (C++ `operator[]` creates an empty
vector, which is observationally the same for reads). -/
def reqListAt (l : List (ℕ × List Request)) (t : ℕ) : List Request :=
  match l.find? (fun p => p.1 == t) with
  | some p => p.2
  | none => []

/-- `request_list[future_time].push_back(r)`. -/
def reqListPush (l : List (ℕ × List Request)) (t : ℕ) (r : Request) :
    List (ℕ × List Request) :=
  match l with
  | [] => [(t, [r])]
  | p :: rest =>
    if p.1 = t then (p.1, p.2 ++ [r]) :: rest else p :: reqListPush rest t r

/-- `request_list.erase(current_time)`. -/
def reqListErase (l : List (ℕ × List Request)) (t : ℕ) :
    List (ℕ × List Request) :=
  match l with
  | [] => []
  | p :: rest => if p.1 = t then rest else p :: reqListErase rest t

/-- `std::set::insert` (no duplicates). -/
def setInsert (s : List ℕ) (a : ℕ) : List ℕ :=
  if a ∈ s then s else s ++ [a]

/-- `Requests::add(addr, future_time, set)`. -/
def Requests.add (rq : Requests) (addr future_time set : ℕ) : Requests :=
  { request_list := reqListPush rq.request_list future_time ⟨addr, set⟩,
    unique_requests := setInsert rq.unique_requests (addr % U32) }

/-- `Requests::get_num_requests` — the number of unique outstanding line
addresses. -/
def Requests.get_num_requests (rq : Requests) : ℕ := rq.unique_requests.length

/-- `Requests::has_requests(current_time)`. -/
def Requests.has_requests (rq : Requests) (t : ℕ) : Bool :=
  0 < (reqListAt rq.request_list t).length

/-- `Requests::get_requests(current_time)`: return and remove all requests at
`current_time`, erasing their addresses from the unique set. -/
def Requests.get_requests (rq : Requests) (t : ℕ) : List Request × Requests :=
  let current := reqListAt rq.request_list t
  (current,
    { request_list := reqListErase rq.request_list t,
      unique_requests :=
        current.foldl (fun s r => s.filter (fun a => a ≠ r.addr % U32))
          rq.unique_requests })

/-! ## The scheduler (`src/model/scheduler.cpp`)

`schedule_threads` assigns threads to warps, warps to blocks, blocks to
cores, and then performs intra-warp memory coalescing.  C++ vector indexing
out of range is undefined behaviour; the embedding uses defaulted reads and
bounds-checked writes (`List.set` out of range is a no-op), which agrees with
the C++ on all inputs the program constructs. -/

/-- `threads[tid]` read. -/
def getThread (ths : List Thread) (tid : ℕ) : Thread := ths.getD tid default

/-- `threads[tid]` write. -/
def setThread (ths : List Thread) (tid : ℕ) (t : Thread) : List Thread :=
  ths.set tid t

/-- In-place update `f` of `threads[tid].accesses[aidx]`. -/
def modifyAccess (ths : List Thread) (tid aidx : ℕ) (f : Access → Access) :
    List Thread :=
  let t := getThread ths tid
  setThread ths tid
    { t with accesses := t.accesses.set aidx (f (t.accesses.getD aidx default)) }

/-- `v[i].push_back(x)` for a vector of vectors. -/
def pushAt (l : List (List ℕ)) (i : ℕ) (x : ℕ) : List (List ℕ) :=
  l.set i (l.getD i [] ++ [x])

/-- `ceil(a / (float) b)` on the exactly-representable range. -/
def ceilDiv (a b : ℕ) : ℕ := (a + b - 1) / b

/-- The `schedule_length` computation of the coalescing loop
(full/half/quarter warps by access size). -/
def schedLen (hw : Settings) (b : ℕ) : ℕ :=
  if b = 8 then hw.warp_size / 2
  else if b = 16 then hw.warp_size / 4
  else hw.warp_size

/-- The scan over `old_tnum ∈ [group_start, tnum)` looking for the first
earlier thread whose access at this column touches the same cache line. -/
def findMatch (ths : List Thread) (warpList : List ℕ) (aidx ls this_line : ℕ) :
    List ℕ → Option ℕ
  | [] => none
  | o :: rest =>
    let old_tid := warpList.getD o 0
    if ((getThread ths old_tid).accesses.getD aidx default).address / ls = this_line
    then some o
    else findMatch ths warpList aidx ls this_line rest

/-- The body of the coalescing loop for one thread position `tnum` at access
column `aidx`: if an earlier thread in the same full/half/quarter-warp group
already loads this cache line, disable this access (`width = 0`) and — when
the byte addresses differ — raise the earlier access's `end_address` and
increment its `width`. -/
def coalesceThread (hw : Settings) (warpList : List ℕ) (aidx tnum : ℕ)
    (ths : List Thread) : List Thread :=
  let tid := warpList.getD tnum 0
  let t := getThread ths tid
  if aidx < t.accesses.length then
    let acc := t.accesses.getD aidx default
    let sl := schedLen hw acc.bytes
    let gs := sl * (tnum / sl)
    let this_line := acc.address / hw.line_size
    match findMatch ths warpList aidx hw.line_size this_line
        (List.range' gs (tnum - gs)) with
    | none => ths
    | some o =>
      let old_tid := warpList.getD o 0
      let oldAcc := (getThread ths old_tid).accesses.getD aidx default
      let ths1 := modifyAccess ths tid aidx (fun a => { a with width := 0 })
      if acc.address ≠ oldAcc.address then
        modifyAccess ths1 old_tid aidx (fun a =>
          { a with end_address := max a.end_address acc.end_address,
                   width := a.width + 1 })
      else ths1
  else ths

/-- One access column of the coalescing loop over all thread positions of a
warp. -/
def coalesceColumn (hw : Settings) (warpList : List ℕ) (aidx : ℕ)
    (ths : List Thread) : List Thread :=
  (List.range warpList.length).foldl
    (fun th tnum => coalesceThread hw warpList aidx tnum th) ths

/-- The largest access-list length over a warp (the coalescing loop visits
access columns `0, 1, ...` until every thread has been counted done, i.e.
exactly the columns below this maximum mutate state). -/
def warpMaxLen (ths : List Thread) (warpList : List ℕ) : ℕ :=
  warpList.foldl (fun m tid => max m (getThread ths tid).accesses.length) 0

/-- Coalescing of one warp (the `access` loop of scheduler.cpp). -/
def coalesceWarp (hw : Settings) (ths : List Thread) (warpList : List ℕ) :
    List Thread :=
  (List.range (warpMaxLen ths warpList)).foldl
    (fun th aidx => coalesceColumn hw warpList aidx th) ths

/-- Coalescing over all warps. -/
def coalesce (hw : Settings) (ths : List Thread) (warps : List (List ℕ)) :
    List Thread :=
  warps.foldl (fun th wl => coalesceWarp hw th wl) ths

/-- `schedule_threads(threads, warps, blocks, cores, hardware, blocksize)`:
hierarchy assignment followed by coalescing.  Returns the mutated
`(threads, warps, blocks, cores)`. -/
def scheduleThreads (ths : List Thread) (warps blocks cores : List (List ℕ))
    (hw : Settings) (blocksize : ℕ) :
    List Thread × List (List ℕ) × List (List ℕ) × List (List ℕ) :=
  let nwpb := ceilDiv blocksize hw.warp_size
  let p := (List.range ths.length).foldl
    (fun (p : List Thread × List (List ℕ)) tid =>
      let wid := (tid % blocksize) / hw.warp_size + (tid / blocksize) * nwpb
      (setThread p.1 tid ((getThread p.1 tid).set_warp wid), pushAt p.2 wid tid))
    (ths, warps)
  let warps' := p.2
  let blocks' := (List.range warps'.length).foldl
    (fun bl wnum => pushAt bl (wnum / nwpb) wnum) blocks
  let cores' := (List.range blocks'.length).foldl
    (fun co bnum => pushAt co (bnum % hw.num_cores) bnum) cores
  (coalesce hw p.1 warps', warps', blocks', cores')

/-- A Fermi-like `Settings` record with a parameterised line size (the other
fields match the defaults of model.h / the 16KB configuration). -/
def fermiSettings (ls : ℕ) : Settings :=
  ⟨ls, 16384, 128, 4, 32, 32, 1, 32, 1536, 8, 100, 5⟩

/-- Two single-access threads as built by `read_file` (width starts at `1`,
`end_address = address + bytes - 1`). -/
def twoThreads (a1 e1 a2 e2 b : ℕ) : List Thread :=
  [⟨0, [⟨0, a1, 1, b, e1⟩], INF, INF⟩, ⟨0, [⟨0, a2, 1, b, e2⟩], INF, INF⟩]

/-- One application of the scheduler to a two-thread block (fresh hierarchy
vectors, as the driver allocates them). -/
def schedOnce (ls : ℕ) (ths : List Thread) : List Thread :=
  (scheduleThreads ths [[]] [[]] [[]] (fermiSettings ls) 2).1

/-! ## The miss classifier (`src/model/io.cpp`, `output_miss_rate`)

For each of the four runs the classifier walks the histogram once:
`distance == INF` counts as compulsory, `distance > cache_ways` as capacity
(with `cache_ways·cache_sets` substituted for run 1), and — in run 0 only —
every remaining bin (`distance ≤ cache_ways`, `distance ≠ INF`) counts as a
hit.  `miss[i] = compulsory[i] + capacity[i]`. -/

/-- Run-`i` compulsory misses: `Σ freq` over `INF` bins. -/
def compulsoryOf (h : List (ℕ × ℕ)) : ℕ :=
  h.foldl (fun acc p => if p.1 = INF then acc + p.2 else acc) 0

/-- Run-`i` capacity misses: `Σ freq` over bins with
`distance ≠ INF ∧ distance > cache_ways`. -/
def capacityOf (h : List (ℕ × ℕ)) (cache_ways : ℕ) : ℕ :=
  h.foldl (fun acc p =>
    if p.1 = INF then acc else if cache_ways < p.1 then acc + p.2 else acc) 0

/-- Hits (counted from run 0 only): `Σ freq` over bins with
`distance ≠ INF ∧ distance ≤ cache_ways`. -/
def hitsOf (h : List (ℕ × ℕ)) (cache_ways : ℕ) : ℕ :=
  h.foldl (fun acc p =>
    if p.1 = INF then acc else if cache_ways < p.1 then acc else acc + p.2) 0

/-- `miss[i] = miss_compulsory[i] + miss_capacity[i]`. -/
def missOf (h : List (ℕ × ℕ)) (cache_ways : ℕ) : ℕ :=
  compulsoryOf h + capacityOf h cache_ways

/-- The engine's hit/miss classification (reusedistance.cpp:193,
`if (distance >= cache_ways)` marks the access as a miss). -/
def isMiss (distance cache_ways : ℕ) : Bool := cache_ways ≤ distance

/-- The residual term `rest` of the decomposition in `output_miss_rate`
(io.cpp:186): `miss[0] − (miss_compulsory[2] + max(0, miss_latency) +
max(0, miss_associativity) + max(0, miss_mshr))`, computed in `int`. -/
def restOf (hists : List (List (ℕ × ℕ))) (hw : Settings) : ℤ :=
  let h0 := hists.getD 0 []
  let h1 := hists.getD 1 []
  let h2 := hists.getD 2 []
  let h3 := hists.getD 3 []
  let w0 := hw.cache_ways
  let w1 := hw.cache_ways * hw.cache_sets
  let miss_associativity : ℤ := (missOf h0 w0 : ℤ) - missOf h1 w1
  let miss_latency : ℤ := (compulsoryOf h0 : ℤ) - compulsoryOf h2
  let miss_mshr : ℤ := (missOf h0 w0 : ℤ) - missOf h3 w0
  (missOf h0 w0 : ℤ) - ((compulsoryOf h2 : ℤ) + max 0 miss_latency +
    max 0 miss_associativity + max 0 miss_mshr)

/-- A small settings record with `cache_ways = 2`, `cache_sets = 4`. -/
def smallSettings : Settings := ⟨128, 1024, 8, 2, 4, 32, 1, 32, 1536, 8, 100, 5⟩

/-! ## `class Pool` (model.h)

The ready queue is a vector of warp ids; the in-flight collection is a
`std::map<unsigned, unsigned>` (warp id → remaining ticks), iterated in
ascending key order, which the embedding keeps as a sorted association
list. -/

structure Pool where
  warps : List ℕ
  in_flight : List (ℕ × ℕ)
  size : ℕ
  done : ℕ
deriving DecidableEq, Repr

/-- `Pool()` constructor. -/
def Pool.init : Pool := ⟨[], [], 0, 0⟩

/-- `in_flight[w] = t` on the sorted association list. -/
def mapInsert (l : List (ℕ × ℕ)) (k v : ℕ) : List (ℕ × ℕ) :=
  match l with
  | [] => [(k, v)]
  | p :: rest =>
    if k < p.1 then (k, v) :: p :: rest
    else if k = p.1 then (k, v) :: rest
    else p :: mapInsert rest k v

/-- `Pool::add_warp(warpid, future_time)`. -/
def Pool.add_warp (p : Pool) (w ft : ℕ) : Pool :=
  if ft = 0 then { p with warps := p.warps ++ [w] }
  else { p with in_flight := mapInsert p.in_flight w ft }

/-- One pass of `Pool::process_warps_in_flight` over the map in ascending
key order: entries at `0` are released (in order), the rest decrement. -/
def processInFlight : List (ℕ × ℕ) → List ℕ × List (ℕ × ℕ)
  | [] => ([], [])
  | (w, t) :: rest =>
    let pr := processInFlight rest
    if t = 0 then (w :: pr.1, pr.2) else (pr.1, (w, t - 1) :: pr.2)

/-- `Pool::process_warps_in_flight`. -/
def Pool.process_warps_in_flight (p : Pool) : Pool :=
  let pr := processInFlight p.in_flight
  { p with warps := p.warps ++ pr.1, in_flight := pr.2 }

/-- `Pool::take_warp` (FIFO pop; the caller has checked `has_work`). -/
def Pool.take_warp (p : Pool) : ℕ × Pool :=
  (p.warps.headD 0, { p with warps := p.warps.tail })

/-- `Pool::set_size`. -/
def Pool.set_size (p : Pool) : Pool := { p with size := p.warps.length }

/-- `Pool::has_work`. -/
def Pool.has_work (p : Pool) : Bool := 0 < p.warps.length

/-- `Pool::is_done` (the C++ also asserts `size != 0`). -/
def Pool.is_done (p : Pool) : Bool := p.done == p.size

/-! ## The reuse-distance engine (`src/model/reusedistance.cpp`)

`reuse_distance` is parameterised exactly as the C++ function; the stream of
RNG draws `|round(distribution(gen))|` is an explicit input `sample : ℕ → ℕ`
consumed left to right (`rng` in the state is the index of the next draw).
The per-window `while (!pool.is_done())` loop is modelled with explicit fuel;
all claim theorems about a finished run are conditioned on the run having
actually drained every thread. -/

structure EngineCfg where
  core : List ℕ
  blocks : List (List ℕ)
  warps : List (List ℕ)
  active_blocks : ℕ
  hardware : Settings
  cache_sets : ℕ
  cache_ways : ℕ
  mem_latency : ℕ
  non_mem_latency : ℕ
  num_mshr : ℕ
  sample : ℕ → ℕ

structure EngineState where
  threads : List Thread
  pool : Pool
  requests_miss : List Requests
  requests_hit : List Requests
  P : List (ℕ × ℕ)
  B : List Node
  set_counters : List ℕ
  timestamp : ℕ
  distances : List (ℕ × ℕ)
  rng : ℕ

/-- The set of an access (its line address hashed, reusedistance.cpp:175). -/
def accessSetOf (cfg : EngineCfg) (a : Access) : ℕ :=
  line_addr_to_set (a.address / cfg.hardware.line_size) a.address
    cfg.cache_sets (cfg.cache_sets * cfg.cache_ways * cfg.hardware.line_size)

/-- `previous_time` of an access: `P[line_addr]` if set (non-zero under the
`operator[]` default), else `INF` (reusedistance.cpp:179-183). -/
def previousTimeOf (cfg : EngineCfg) (st : EngineState) (a : Access) : ℕ :=
  let prev := lookupD st.P (a.address / cfg.hardware.line_size) 0
  if prev ≠ 0 then prev else INF

/-- The reuse distance of an access (reusedistance.cpp:186-189). -/
def distanceOf (cfg : EngineCfg) (st : EngineState) (a : Access) : ℕ :=
  if previousTimeOf cfg st a ≠ INF then
    (st.B.getD (accessSetOf cfg a) default).count (previousTimeOf cfg st a)
  else INF

/-- `process_requests` body for one request (reusedistance.cpp:297-313):
unset the previous stack position if any, record the new position in `P`,
set it in the tree and advance the set counter. -/
def processRequestsList (P : List (ℕ × ℕ)) (tree : Node) (counter : ℕ) :
    List Request → List (ℕ × ℕ) × Node × ℕ
  | [] => (P, tree, counter)
  | req :: rest =>
    let prev := lookupD P req.addr 0
    let tree1 := if prev ≠ 0 then tree.unset prev else tree
    let P1 := setKey P req.addr counter
    let tree2 := tree1.set counter
    processRequestsList P1 tree2 (counter + 1) rest

/-- `process_requests(requests, timestamp, set, P, B, set_counters)`
(reusedistance.cpp:287-315) acting on one request book. -/
def drainOne (rq : Requests) (timestamp set : ℕ) (P : List (ℕ × ℕ))
    (B : List Node) (counters : List ℕ) :
    Requests × List (ℕ × ℕ) × List Node × List ℕ :=
  if rq.has_requests timestamp then
    let pr := rq.get_requests timestamp
    let res := processRequestsList P (B.getD set default) (counters.getD set 0) pr.1
    (pr.2, res.1, B.set set res.2.1, counters.set set res.2.2)
  else (rq, P, B, counters)

/-- One drain point for one set: hits first, then misses
(reusedistance.cpp:237-240 and 255-258). -/
def drainSet (st : EngineState) (set : ℕ) : EngineState :=
  let h := drainOne (st.requests_hit.getD set default) st.timestamp set
    st.P st.B st.set_counters
  let st1 := { st with
    requests_hit := st.requests_hit.set set h.1,
    P := h.2.1,
    B := h.2.2.1,
    set_counters := h.2.2.2 }
  let m := drainOne (st1.requests_miss.getD set default) st1.timestamp set
    st1.P st1.B st1.set_counters
  { st1 with
    requests_miss := st1.requests_miss.set set m.1,
    P := m.2.1,
    B := m.2.2.1,
    set_counters := m.2.2.2 }

/-- A full drain point: all sets in ascending order. -/
def drainAll (cfg : EngineCfg) (st : EngineState) : EngineState :=
  (List.range cfg.cache_sets).foldl drainSet st

/-- The warp-processing context: the state plus the `max_future_time` and
`threads_done` locals of the warp loop. -/
structure WarpCtx where
  st : EngineState
  max_future_time : ℕ
  threads_done : ℕ

/-- Processing of one thread position `tnum` of the selected warp
(reusedistance.cpp:160-234).  The returned flag is the `break` out of the
current warp portion taken on MSHR backpressure (`tnum == 0` only). -/
def doThread (cfg : EngineCfg) (snapshot : ℕ) (warpList : List ℕ) (tnum : ℕ)
    (c : WarpCtx) : WarpCtx × Bool :=
  let tid := warpList.getD tnum 0
  let t := getThread c.st.threads tid
  if t.is_done then ({ c with threads_done := c.threads_done + 1 }, false)
  else
    let pr := t.schedule
    let access := pr.1
    let st := { c.st with threads := setThread c.st.threads tid pr.2 }
    if access.width = 0 then ({ c with st := st }, false)
    else
      let line_addr := access.address / cfg.hardware.line_size
      let set := accessSetOf cfg access
      let distance := distanceOf cfg st access
      if cfg.cache_ways ≤ distance then
        let memory_latency := cfg.mem_latency + cfg.sample st.rng
        let st := { st with rng := st.rng + 1 }
        let arrival_time := st.timestamp + memory_latency
        let mft := max c.max_future_time memory_latency
        if cfg.num_mshr ≤ snapshot ∧ tnum = 0 then
          ({ st := { st with
                threads := setThread st.threads tid pr.2.unschedule },
             max_future_time := 0,
             threads_done := c.threads_done }, true)
        else
          ({ st := { st with
                requests_miss := st.requests_miss.set set
                  ((st.requests_miss.getD set default).add line_addr
                    arrival_time set),
                distances := bump st.distances distance },
             max_future_time := mft,
             threads_done := c.threads_done }, false)
      else
        let arrival_time := st.timestamp + cfg.non_mem_latency
        ({ st := { st with
              requests_hit := st.requests_hit.set set
                ((st.requests_hit.getD set default).add line_addr
                  arrival_time set),
              distances := bump st.distances distance },
           max_future_time := c.max_future_time,
           threads_done := c.threads_done }, false)

/-- The thread loop of one warp portion, stopping early on the backpressure
`break`. -/
def doThreadsFrom (cfg : EngineCfg) (snapshot : ℕ) (warpList : List ℕ) :
    List ℕ → WarpCtx → WarpCtx
  | [], c => c
  | tnum :: rest, c =>
    let pr := doThread cfg snapshot warpList tnum c
    if pr.2 then pr.1 else doThreadsFrom cfg snapshot warpList rest pr.1

/-- The thread positions `[tnum_start, min(tnum_stop, |warp|))` of portion
`p` (reusedistance.cpp:156-160). -/
def portionIdxs (warp_size portions p len : ℕ) : List ℕ :=
  let start := p * (warp_size / portions)
  let stop := min ((p + 1) * (warp_size / portions)) len
  List.range' start (stop - start)

/-- One warp portion: its threads followed by a drain point
(reusedistance.cpp:155-241). -/
def doPortion (cfg : EngineCfg) (snapshot : ℕ) (warpList : List ℕ)
    (portions p : ℕ) (c : WarpCtx) : WarpCtx :=
  let c1 := doThreadsFrom cfg snapshot warpList
    (portionIdxs cfg.hardware.warp_size portions p warpList.length) c
  { c1 with st := drainAll cfg c1.st }

/-- Processing of the selected warp (reusedistance.cpp:147-251): take it
from the pool, split into `max(1, bytes/4)` portions, and afterwards either
mark the warp done or return it with delay `max_future_time`. -/
def doWarp (cfg : EngineCfg) (snapshot : ℕ) (st : EngineState) : EngineState :=
  let pr := st.pool.take_warp
  let wnum := pr.1
  let st1 := { st with pool := pr.2 }
  let warpList := cfg.warps.getD wnum []
  let bytes := (getThread st1.threads (warpList.getD 0 0)).get_bytes
  let portions := max 1 (bytes / 4)
  let c := (List.range portions).foldl
    (fun c p => doPortion cfg snapshot warpList portions p c)
    ⟨st1, 0, 0⟩
  if c.threads_done = warpList.length then
    { c.st with pool := { c.st.pool with done := c.st.pool.done + 1 } }
  else
    { c.st with pool := c.st.pool.add_warp wnum c.max_future_time }

/-- The MSHR status check at the top of the warp loop
(reusedistance.cpp:138-142): total unique in-flight miss addresses over all
sets. -/
def mshrSnapshot (cfg : EngineCfg) (st : EngineState) : ℕ :=
  (List.range cfg.cache_sets).foldl
    (fun acc set => acc + (st.requests_miss.getD set default).get_num_requests) 0

/-- One iteration of `while (!pool.is_done())` (reusedistance.cpp:136-265):
snapshot the MSHRs, process one warp if the pool has ready work, drain all
sets, move in-flight warps, increment the timestamp. -/
def tick (cfg : EngineCfg) (st : EngineState) : EngineState :=
  let snapshot := mshrSnapshot cfg st
  let st1 := if st.pool.has_work then doWarp cfg snapshot st else st
  let st2 := drainAll cfg st1
  let st3 := { st2 with pool := st2.pool.process_warps_in_flight }
  { st3 with timestamp := st3.timestamp + 1 }

/-- The per-window `while` loop with explicit fuel (the C++ loop has no
bound; a run that does not finish within the fuel is simply cut off, and
the claim theorems require the run to have drained every thread). -/
def runPool (cfg : EngineCfg) : ℕ → EngineState → EngineState
  | 0, st => st
  | fuel + 1, st =>
    if st.pool.is_done then st else runPool cfg fuel (tick cfg st)

/-- Window setup (reusedistance.cpp:121-133): a fresh pool filled with every
warp of the blocks in the current active-block window, and fresh request
books. -/
def initWindow (cfg : EngineCfg) (snum : ℕ) (st : EngineState) : EngineState :=
  let bstart := snum * cfg.active_blocks
  let bstop := min ((snum + 1) * cfg.active_blocks) cfg.core.length
  let ready := (List.range' bstart (bstop - bstart)).foldl
    (fun acc bnum => acc ++ cfg.blocks.getD (cfg.core.getD bnum 0) []) []
  { st with
    pool := ⟨ready, [], ready.length, 0⟩,
    requests_miss := List.replicate cfg.cache_sets Requests.init,
    requests_hit := List.replicate cfg.cache_sets Requests.init }

/-- Phase 1 for one thread (reusedistance.cpp:70-91): count every remaining
`width ≠ 0` access into its set, and also into the set of its end address
when the access straddles a cache-line boundary. -/
def phase1Step (cfg : EngineCfg) (counts : List ℕ) (access : Access) :
    List ℕ :=
  if access.width ≠ 0 then
    let la := access.address / cfg.hardware.line_size
    let counts1 := incAt counts (accessSetOf cfg access)
    let la2 := access.end_address / cfg.hardware.line_size
    if la ≠ la2 then
      incAt counts1 (line_addr_to_set la2 access.end_address cfg.cache_sets
        (cfg.cache_sets * cfg.cache_ways * cfg.hardware.line_size))
    else counts1
  else counts

def phase1Thread (cfg : EngineCfg) (counts : List ℕ) (t : Thread) : List ℕ :=
  (t.accesses.drop t.pc).foldl (phase1Step cfg) counts

/-- Phase 1 over all threads (every thread is reset afterwards). -/
def phase1Counts (cfg : EngineCfg) (ths : List Thread) : List ℕ :=
  ths.foldl (phase1Thread cfg) (List.replicate cfg.cache_sets 0)

/-- The `grand_total` of reusedistance.cpp:93-97. -/
def grandTotalOf (cfg : EngineCfg) (ths : List Thread) : ℕ :=
  (phase1Counts cfg ths).sum

/-- Phase 2 state (reusedistance.cpp:99-116): per-set trees of size
`count + STACK_EXTRA_SIZE`, empty `P`, set counters at `1`, time `0`; the
histogram is the caller's in-out map `dist0`. -/
def engineInit (cfg : EngineCfg) (ths : List Thread)
    (dist0 : List (ℕ × ℕ)) : EngineState :=
  { threads := ths.map Thread.reset,
    pool := Pool.init,
    requests_miss := [],
    requests_hit := [],
    P := [],
    B := (phase1Counts cfg ths).map (fun c => mkTree (c + STACK_EXTRA_SIZE)),
    set_counters := List.replicate cfg.cache_sets 1,
    timestamp := 0,
    distances := dist0,
    rng := 0 }

/-- Phases 2-4 of `reuse_distance`: the round-robin loop over active-block
windows (reusedistance.cpp:119-266). -/
def engineRun (cfg : EngineCfg) (fuel : ℕ) (ths : List Thread)
    (dist0 : List (ℕ × ℕ)) : EngineState :=
  (List.range (ceilDiv cfg.core.length cfg.active_blocks)).foldl
    (fun st snum => runPool cfg fuel (initWindow cfg snum st))
    (engineInit cfg ths dist0)

/-- Sum of the histogram frequencies (`distances_total`,
reusedistance.cpp:274-277). -/
def histTotal (h : List (ℕ × ℕ)) : ℕ := (h.map Prod.snd).sum

/-- The complete `reuse_distance` call: phase 1 pre-count, the engine run,
the final PC reset and the sanity comparison of reusedistance.cpp:273-280. -/
structure RunResult where
  state : EngineState
  grand_total : ℕ
  sanity : Bool

def reuseDistance (cfg : EngineCfg) (fuel : ℕ) (ths : List Thread)
    (dist0 : List (ℕ × ℕ)) : RunResult :=
  let st := engineRun cfg fuel ths dist0
  let gtot := grandTotalOf cfg ths
  { state := { st with threads := st.threads.map Thread.reset },
    grand_total := gtot,
    sanity := gtot == histTotal st.distances }

/-! ### Observables used by the claims about the engine -/

/-- All threads have consumed all their accesses. -/
def allDone (ths : List Thread) : Bool := ths.all Thread.is_done

/-- Enabled (`width ≠ 0`) accesses of one thread — what Phase 3 records
exactly once each. -/
def thWidth (t : Thread) : ℕ :=
  (t.accesses.filter (fun a => a.width != 0)).length

/-- Enabled accesses of one thread that straddle a cache-line boundary —
counted twice in Phase 1 but processed once in Phase 3. -/
def thStraddle (ls : ℕ) (t : Thread) : ℕ :=
  (t.accesses.filter (fun a =>
    a.width != 0 && a.address / ls != a.end_address / ls)).length

/-- Enabled accesses of one thread not yet consumed (at or after the PC). -/
def thRem (t : Thread) : ℕ :=
  ((t.accesses.drop t.pc).filter (fun a => a.width != 0)).length

/-- Line addresses of the enabled accesses of one thread already consumed
(before the PC). -/
def thLines (ls : ℕ) (t : Thread) : List ℕ :=
  ((t.accesses.take t.pc).filter (fun a => a.width != 0)).map
    (fun a => a.address / ls)

/-- Line addresses of all enabled accesses of one thread. -/
def thAllLines (ls : ℕ) (t : Thread) : List ℕ :=
  (t.accesses.filter (fun a => a.width != 0)).map (fun a => a.address / ls)

def widthCount (ths : List Thread) : ℕ := (ths.map thWidth).sum

def straddleCount (cfg : EngineCfg) (ths : List Thread) : ℕ :=
  (ths.map (thStraddle cfg.hardware.line_size)).sum

def remWidth (ths : List Thread) : ℕ := (ths.map thRem).sum

/-- Lines for which Phase 3 has recorded a distance so far. -/
def prefLinesList (ls : ℕ) (ths : List Thread) : List ℕ :=
  (ths.map (thLines ls)).flatten

/-- Line addresses touched by all enabled accesses of the trace. -/
def touchedLinesList (ls : ℕ) (ths : List Thread) : List ℕ :=
  (ths.map (thAllLines ls)).flatten

/-- Request-book addresses all lie in `L`. -/
def reqAddrsIn (rq : Requests) (L : List ℕ) : Prop :=
  ∀ p ∈ rq.request_list, ∀ r ∈ p.2, r.addr ∈ L

/-- The engine-run invariant tying the histogram, `P`, the request books and
the consumed prefixes together (stated for the runs the claims need, which
start from an empty caller histogram). -/
structure Inv (ls : ℕ) (st : EngineState) : Prop where
  pcLe : ∀ t ∈ st.threads, t.pc ≤ t.accesses.length
  psub : ∀ a, lookupD st.P a 0 ≠ 0 → a ∈ prefLinesList ls st.threads
  msub : ∀ rq ∈ st.requests_miss, reqAddrsIn rq (prefLinesList ls st.threads)
  hsub : ∀ rq ∈ st.requests_hit, reqAddrsIn rq (prefLinesList ls st.threads)
  card : (prefLinesList ls st.threads).toFinset.card ≤ compulsoryOf st.distances

/-! ### Concrete engine runs used to separate the spec from the code -/

/-- A one-line, one-set, one-way cache (line size 4, warp size 32). -/
def tinyHw : Settings := ⟨4, 4, 1, 1, 1, 99999999, 1, 32, 1536, 8, 0, 0⟩

/-- One block, one warp, one thread whose single enabled access (address 2,
4 bytes) straddles the boundary between lines 0 and 1. -/
def c3cfg : EngineCfg :=
  { core := [0], blocks := [[0]], warps := [[0]], active_blocks := 1,
    hardware := tinyHw, cache_sets := 1, cache_ways := 1, mem_latency := 0,
    non_mem_latency := 0, num_mshr := 99999999, sample := fun _ => 0 }

def c3threads : List Thread := [⟨0, [⟨0, 2, 1, 4, 5⟩], 0, 0⟩]

/-- One warp of two threads that both access line 0; the second access is
issued in the same portion as the first, before any drain point. -/
def c5cfg : EngineCfg :=
  { core := [0], blocks := [[0]], warps := [[0, 1]], active_blocks := 1,
    hardware := tinyHw, cache_sets := 1, cache_ways := 1, mem_latency := 0,
    non_mem_latency := 0, num_mshr := 99999999, sample := fun _ => 0 }

def c5threads : List Thread :=
  [⟨0, [⟨0, 0, 1, 4, 3⟩], 0, 0⟩, ⟨0, [⟨0, 0, 1, 4, 3⟩], 0, 0⟩]

/-- One warp of two threads touching four distinct lines, a single MSHR and
a memory latency of 2 ticks. -/
def c2cfg : EngineCfg :=
  { core := [0], blocks := [[0]], warps := [[0, 1]], active_blocks := 1,
    hardware := tinyHw, cache_sets := 1, cache_ways := 1, mem_latency := 2,
    non_mem_latency := 0, num_mshr := 1, sample := fun _ => 0 }

def c2threads : List Thread :=
  [⟨0, [⟨0, 0, 1, 4, 3⟩, ⟨0, 8, 1, 4, 11⟩], 0, 0⟩,
   ⟨0, [⟨0, 4, 1, 4, 7⟩, ⟨0, 12, 1, 4, 15⟩], 0, 0⟩]

/-- The engine state of `c2cfg` after its first tick: both misses of the
first warp pass are in flight. -/
def c2st1 : EngineState := engineRun c2cfg 1 c2threads []

/-! ## Theorems -/

theorem Good.one_le {t : Node} {s n : ℕ} (h : Good t s n) : 1 ≤ n := by
  cases h with
  | leaf => exact le_refl 1
  | inner _ _ _ _ hsize => omega

theorem Good.range_b_eq {t : Node} {s n : ℕ} (h : Good t s n) :
    t.range_b = s + n - 1 := by
  cases h with
  | leaf => rfl
  | inner => rfl

theorem Good.value_eq {t : Node} {s n : ℕ} (h : Good t s n) :
    t.value = t.leafSum := by
  cases h with
  | leaf => rfl
  | inner => rfl

theorem Node.leafVal_le_leafSum (t : Node) (i : ℕ) : t.leafVal i ≤ t.leafSum := by
  induction t with
  | leaf b v =>
    simp only [Node.leafVal, Node.leafSum]
    split <;> omega
  | inner b v l r ihl ihr =>
    simp only [Node.leafVal, Node.leafSum]
    exact Nat.add_le_add ihl ihr

theorem Good.leafVal_outside {t : Node} {s n : ℕ} (h : Good t s n) (i : ℕ)
    (hi : i < s ∨ s + n ≤ i) : t.leafVal i = 0 := by
  induction h with
  | leaf start v hv =>
    simp only [Node.leafVal]
    have : start ≠ i := by omega
    simp [this]
  | inner start size l r hsize hl hr ihl ihr =>
    have hsplit : (size + 1) / 2 + size / 2 = size := by omega
    have h1 : 1 ≤ (size + 1) / 2 := by omega
    simp only [Node.leafVal]
    rw [ihl (by omega), ihr (by omega)]

theorem Good.leafVal_le_one {t : Node} {s n : ℕ} (h : Good t s n) (i : ℕ) :
    t.leafVal i ≤ 1 := by
  induction h with
  | leaf start v hv =>
    simp only [Node.leafVal]
    split <;> omega
  | inner start size l r hsize hl hr ihl ihr =>
    simp only [Node.leafVal]
    rcases Nat.lt_or_ge i (start + (size + 1) / 2) with hlt | hge
    · rw [hr.leafVal_outside i (Or.inl hlt)]
      simpa using ihl
    · rw [hl.leafVal_outside i (Or.inr (by omega))]
      simpa using ihr

theorem Good.leafSum_eq_sum {t : Node} {s n : ℕ} (h : Good t s n) :
    t.leafSum = ∑ i ∈ Finset.Ico s (s + n), t.leafVal i := by
  induction h with
  | leaf start v hv =>
    simp [Node.leafSum, Node.leafVal]
  | inner start size l r hsize hl hr ihl ihr =>
    have hsplit : (size + 1) / 2 + size / 2 = size := by omega
    have hmid : s ≤ s + 1 := by omega
    simp only [Node.leafSum, Node.leafVal]
    rw [← Finset.sum_Ico_consecutive (fun i => l.leafVal i + r.leafVal i)
        (show start ≤ start + (size + 1) / 2 by omega)
        (show start + (size + 1) / 2 ≤ start + size by omega)]
    have hleft : ∑ i ∈ Finset.Ico start (start + (size + 1) / 2),
        (l.leafVal i + r.leafVal i) =
        ∑ i ∈ Finset.Ico start (start + (size + 1) / 2), l.leafVal i := by
      refine Finset.sum_congr rfl (fun i hi => ?_)
      rw [Finset.mem_Ico] at hi
      rw [hr.leafVal_outside i (Or.inl hi.2), Nat.add_zero]
    have hright : ∑ i ∈ Finset.Ico (start + (size + 1) / 2) (start + size),
        (l.leafVal i + r.leafVal i) =
        ∑ i ∈ Finset.Ico (start + (size + 1) / 2) (start + size), r.leafVal i := by
      refine Finset.sum_congr rfl (fun i hi => ?_)
      rw [Finset.mem_Ico] at hi
      rw [hl.leafVal_outside i (Or.inr hi.1), Nat.zero_add]
    rw [hleft, hright, ihl]
    have : start + (size + 1) / 2 + size / 2 = start + size := by omega
    rw [ihr, this]

/-- Correctness of `Tree::count`: on a well-formed tree it returns the sum of
the leaf values at indices strictly greater than `target` (for any `target`
at least the start of the tree's index range). -/
theorem Good.count_eq {t : Node} {s n : ℕ} (h : Good t s n) (target : ℕ)
    (hts : s ≤ target) :
    t.count target = ∑ i ∈ Finset.Ico s (s + n),
      if target < i then t.leafVal i else 0 := by
  induction h generalizing target with
  | leaf start v hv =>
    simp only [Node.count]
    have hsingle : Finset.Ico start (start + 1) = {start} := by
      rw [Nat.Ico_succ_right, Finset.Icc_self]
    rw [hsingle, Finset.sum_singleton]
    have h2 : ¬ target < start := by omega
    rw [if_neg h2]
  | inner start size l r hsize hl hr ihl ihr =>
    have hsplit : (size + 1) / 2 + size / 2 = size := by omega
    have hcl1 : 1 ≤ (size + 1) / 2 := by omega
    simp only [Node.count, Node.leafVal]
    by_cases hv : l.leafSum + r.leafSum = 0
    · rw [if_pos hv]
      symm
      refine Finset.sum_eq_zero (fun i _ => ?_)
      have h1 := Node.leafVal_le_leafSum l i
      have h2 := Node.leafVal_le_leafSum r i
      have hl0 : l.leafVal i = 0 := by omega
      have hr0 : r.leafVal i = 0 := by omega
      rw [hl0, hr0]
      simp
    · rw [if_neg hv, hl.range_b_eq]
      rw [← Finset.sum_Ico_consecutive _
          (show start ≤ start + (size + 1) / 2 by omega)
          (show start + (size + 1) / 2 ≤ start + size by omega)]
      by_cases hbr : start + (size + 1) / 2 - 1 < target
      · rw [if_pos hbr]
        have hleft0 : ∑ i ∈ Finset.Ico start (start + (size + 1) / 2),
            (if target < i then l.leafVal i + r.leafVal i else 0) = 0 := by
          refine Finset.sum_eq_zero (fun i hi => ?_)
          rw [Finset.mem_Ico] at hi
          have : ¬ target < i := by omega
          rw [if_neg this]
        rw [hleft0, Nat.zero_add, ihr target (by omega)]
        have harange : start + (size + 1) / 2 + size / 2 = start + size := by omega
        rw [harange]
        refine Finset.sum_congr rfl (fun i hi => ?_)
        rw [Finset.mem_Ico] at hi
        by_cases hti : target < i
        · rw [if_pos hti, if_pos hti, hl.leafVal_outside i (Or.inr hi.1), Nat.zero_add]
        · rw [if_neg hti, if_neg hti]
      · rw [if_neg hbr, hr.value_eq, ihl target hts]
        have hrs := hr.leafSum_eq_sum
        have harange : start + (size + 1) / 2 + size / 2 = start + size := by omega
        rw [harange] at hrs
        rw [hrs]
        have hleft : ∑ i ∈ Finset.Ico start (start + (size + 1) / 2),
            (if target < i then l.leafVal i + r.leafVal i else 0) =
            ∑ i ∈ Finset.Ico start (start + (size + 1) / 2),
              (if target < i then l.leafVal i else 0) := by
          refine Finset.sum_congr rfl (fun i hi => ?_)
          rw [Finset.mem_Ico] at hi
          by_cases hti : target < i
          · rw [if_pos hti, if_pos hti, hr.leafVal_outside i (Or.inl hi.2), Nat.add_zero]
          · rw [if_neg hti, if_neg hti]
        have hright : ∑ i ∈ Finset.Ico (start + (size + 1) / 2) (start + size),
            (if target < i then l.leafVal i + r.leafVal i else 0) =
            ∑ i ∈ Finset.Ico (start + (size + 1) / 2) (start + size),
              r.leafVal i := by
          refine Finset.sum_congr rfl (fun i hi => ?_)
          rw [Finset.mem_Ico] at hi
          have hti : target < i := by omega
          rw [if_pos hti, hl.leafVal_outside i (Or.inr hi.1), Nat.zero_add]
        rw [hleft, hright]
        omega

/-- `Tree::set` preserves the shape invariant, adds `1` to the leaf sum and
writes exactly the targeted leaf, provided the caller's contract holds
(the leaf at `target` is currently `0`). -/
theorem Good.set_spec {t : Node} {s n : ℕ} (h : Good t s n) (target : ℕ)
    (hts : s ≤ target) (htn : target < s + n) (h0 : t.leafVal target = 0) :
    Good (t.set target) s n ∧ (t.set target).leafSum = t.leafSum + 1 ∧
      ∀ i, (t.set target).leafVal i = if i = target then 1 else t.leafVal i := by
  induction h generalizing target with
  | leaf start v hv =>
    have hteq : target = start := by omega
    subst hteq
    simp only [Node.leafVal, if_pos rfl] at h0
    subst h0
    refine ⟨Good.leaf target 1 (le_refl 1), by simp [Node.set, Node.leafSum], ?_⟩
    intro i
    simp only [Node.set, Node.leafVal]
    by_cases hit : target = i
    · subst hit; simp
    · rw [if_neg hit, if_neg (fun hh => hit hh.symm), if_neg hit]
  | inner start size l r hsize hl hr ihl ihr =>
    have hsplit : (size + 1) / 2 + size / 2 = size := by omega
    have hcl1 : 1 ≤ (size + 1) / 2 := by omega
    simp only [Node.leafVal] at h0
    have hl0 : l.leafVal target = 0 := by omega
    have hr0 : r.leafVal target = 0 := by omega
    simp only [Node.set, hl.range_b_eq]
    by_cases hbr : start + (size + 1) / 2 - 1 < target
    · rw [if_pos hbr]
      obtain ⟨hg, hsum, hpt⟩ := ihr target (by omega) (by omega) hr0
      refine ⟨?_, ?_, ?_⟩
      · have hshape : l.leafSum + r.leafSum + 1 =
            l.leafSum + (r.set target).leafSum := by omega
        rw [hshape]
        exact Good.inner start size l (r.set target) hsize hl hg
      · simp only [Node.leafSum]; omega
      · intro i
        simp only [Node.leafVal, hpt i]
        by_cases hit : i = target
        · subst hit
          rw [if_pos rfl, if_pos rfl, hl0, Nat.zero_add]
        · rw [if_neg hit, if_neg hit]
    · rw [if_neg hbr]
      obtain ⟨hg, hsum, hpt⟩ := ihl target hts (by omega) hl0
      refine ⟨?_, ?_, ?_⟩
      · have hshape : l.leafSum + r.leafSum + 1 =
            (l.set target).leafSum + r.leafSum := by omega
        rw [hshape]
        exact Good.inner start size (l.set target) r hsize hg hr
      · simp only [Node.leafSum]; omega
      · intro i
        simp only [Node.leafVal, hpt i]
        by_cases hit : i = target
        · subst hit
          rw [if_pos rfl, if_pos rfl, hr0, Nat.add_zero]
        · rw [if_neg hit, if_neg hit]

/-- `Tree::unset` preserves the shape invariant, subtracts `1` from the leaf
sum and clears exactly the targeted leaf, provided the caller's contract
holds (the leaf at `target` is currently `1`). -/
theorem Good.unset_spec {t : Node} {s n : ℕ} (h : Good t s n) (target : ℕ)
    (hts : s ≤ target) (htn : target < s + n) (h1 : t.leafVal target = 1) :
    Good (t.unset target) s n ∧ (t.unset target).leafSum = t.leafSum - 1 ∧
      ∀ i, (t.unset target).leafVal i = if i = target then 0 else t.leafVal i := by
  induction h generalizing target with
  | leaf start v hv =>
    have hteq : target = start := by omega
    subst hteq
    simp only [Node.leafVal, if_pos rfl] at h1
    subst h1
    refine ⟨Good.leaf target 0 (by omega), by simp [Node.unset, Node.leafSum], ?_⟩
    intro i
    simp only [Node.unset, Node.leafVal]
    by_cases hit : target = i
    · subst hit; simp
    · rw [if_neg hit, if_neg (fun hh => hit hh.symm), if_neg hit]
  | inner start size l r hsize hl hr ihl ihr =>
    have hsplit : (size + 1) / 2 + size / 2 = size := by omega
    have hcl1 : 1 ≤ (size + 1) / 2 := by omega
    simp only [Node.leafVal] at h1
    simp only [Node.unset, hl.range_b_eq]
    by_cases hbr : start + (size + 1) / 2 - 1 < target
    · rw [if_pos hbr]
      have hl0 : l.leafVal target = 0 :=
        hl.leafVal_outside target (Or.inr (by omega))
      have hr1 : r.leafVal target = 1 := by omega
      have hrpos : 1 ≤ r.leafSum := le_trans (by omega)
        (Node.leafVal_le_leafSum r target)
      obtain ⟨hg, hsum, hpt⟩ := ihr target (by omega) (by omega) hr1
      refine ⟨?_, ?_, ?_⟩
      · have hshape : l.leafSum + r.leafSum - 1 =
            l.leafSum + (r.unset target).leafSum := by omega
        rw [hshape]
        exact Good.inner start size l (r.unset target) hsize hl hg
      · simp only [Node.leafSum]; omega
      · intro i
        simp only [Node.leafVal, hpt i]
        by_cases hit : i = target
        · subst hit
          rw [if_pos rfl, if_pos rfl, hl0, Nat.zero_add]
        · rw [if_neg hit, if_neg hit]
    · rw [if_neg hbr]
      have hr0 : r.leafVal target = 0 :=
        hr.leafVal_outside target (Or.inl (by omega))
      have hl1 : l.leafVal target = 1 := by omega
      have hlpos : 1 ≤ l.leafSum := le_trans (by omega)
        (Node.leafVal_le_leafSum l target)
      obtain ⟨hg, hsum, hpt⟩ := ihl target hts (by omega) hl1
      refine ⟨?_, ?_, ?_⟩
      · have hshape : l.leafSum + r.leafSum - 1 =
            (l.unset target).leafSum + r.leafSum := by omega
        rw [hshape]
        exact Good.inner start size (l.unset target) r hsize hg hr
      · simp only [Node.leafSum]; omega
      · intro i
        simp only [Node.leafVal, hpt i]
        by_cases hit : i = target
        · subst hit
          rw [if_pos rfl, if_pos rfl, hr0, Nat.add_zero]
        · rw [if_neg hit, if_neg hit]

/-- All leaves of a freshly built tree are `0`. -/
theorem fillTreeAux_leafSum (fuel : ℕ) :
    ∀ s n, (fillTreeAux fuel s n).leafSum = 0 := by
  induction fuel with
  | zero => intro s n; rfl
  | succ fuel ih =>
    intro s n
    simp only [fillTreeAux]
    split
    · rfl
    · simp only [Node.leafSum, ih]

/-- `fill_tree(start, size, _)` builds a well-formed tree (for any
sufficient structural fuel). -/
theorem fillTreeAux_good (fuel : ℕ) :
    ∀ s n, 1 ≤ n → n ≤ fuel → Good (fillTreeAux fuel s n) s n := by
  induction fuel with
  | zero => intro s n h1 h2; omega
  | succ fuel ih =>
    intro s n h1 h2
    simp only [fillTreeAux]
    by_cases hn : n ≤ 1
    · have : n = 1 := by omega
      subst this
      rw [if_pos (le_refl 1)]
      exact Good.leaf s 0 (by omega)
    · rw [if_neg hn]
      have hcl : 1 ≤ (n + 1) / 2 ∧ (n + 1) / 2 ≤ fuel := by omega
      have hfl : 1 ≤ n / 2 ∧ n / 2 ≤ fuel := by omega
      have hg := Good.inner s n (fillTreeAux fuel s ((n + 1) / 2))
        (fillTreeAux fuel (s + (n + 1) / 2) (n / 2)) (by omega)
        (ih s ((n + 1) / 2) hcl.1 hcl.2)
        (ih (s + (n + 1) / 2) (n / 2) hfl.1 hfl.2)
      rwa [fillTreeAux_leafSum, fillTreeAux_leafSum] at hg

theorem mkTree_good (size : ℕ) (h : 1 ≤ size) : Good (mkTree size) 0 size :=
  fillTreeAux_good size 0 size h (le_refl size)

/-- The structural fuel of `fillTreeAux` is irrelevant once it covers the
size, so `fillTree` satisfies the recursion of `fill_tree` literally. -/
theorem fillTreeAux_congr : ∀ n f g s, n ≤ f → n ≤ g →
    fillTreeAux f s n = fillTreeAux g s n := by
  intro n
  induction n using Nat.strong_induction_on with
  | _ n ih =>
    intro f g s hf hg
    match f, g with
    | 0, 0 => rfl
    | 0, g + 1 =>
      have : n = 0 := by omega
      subst this
      simp [fillTreeAux]
    | f + 1, 0 =>
      have : n = 0 := by omega
      subst this
      simp [fillTreeAux]
    | f + 1, g + 1 =>
      simp only [fillTreeAux]
      by_cases hn : n ≤ 1
      · rw [if_pos hn, if_pos hn]
      · rw [if_neg hn, if_neg hn]
        have hcl : (n + 1) / 2 < n := by omega
        have hfl : n / 2 < n := by omega
        rw [ih ((n + 1) / 2) hcl f g s (by omega) (by omega),
          ih (n / 2) hfl f g (s + (n + 1) / 2) (by omega) (by omega)]

theorem validOps_good : ∀ (ops : List Op) (t : Node) (size : ℕ),
    Good t 0 size → validOpsB t size ops = true →
    Good (applyOps t ops) 0 size := by
  intro ops
  induction ops with
  | nil => intro t size hg _; exact hg
  | cons op rest ih =>
    intro t size hg hv
    cases op with
    | set i =>
      simp only [validOpsB, Bool.and_eq_true, decide_eq_true_eq] at hv
      obtain ⟨⟨hi, h0⟩, hrest⟩ := hv
      have hspec := hg.set_spec i (Nat.zero_le i) (by omega) h0
      exact ih (t.set i) size hspec.1 hrest
    | unset i =>
      simp only [validOpsB, Bool.and_eq_true, decide_eq_true_eq] at hv
      obtain ⟨⟨hi, h1⟩, hrest⟩ := hv
      have hspec := hg.unset_spec i (Nat.zero_le i) (by omega) h1
      exact ih (t.unset i) size hspec.1 hrest

/-- C6: for every stack tree created as `Tree(size)` and every sequence of
valid `set`/`unset` operations on indices in `[0, size)` (`set` only on a
`0`-leaf, `unset` only on a `1`-leaf), `count(target)` returns exactly the
number of leaf indices currently holding `1` that are strictly greater than
`target`, for every `target` in `[0, size)`. -/
theorem C6_count_correct (size : ℕ) (ops : List Op) (target : ℕ)
    (hsize : 0 < size) (hops : validOpsB (mkTree size) size ops = true)
    (htarget : target < size) :
    (applyOps (mkTree size) ops).count target =
      ((Finset.range size).filter
        (fun i => target < i ∧ (applyOps (mkTree size) ops).leafVal i = 1)).card := by
  have hg : Good (applyOps (mkTree size) ops) 0 size :=
    validOps_good ops (mkTree size) size (mkTree_good size hsize) hops
  rw [hg.count_eq target (Nat.zero_le target)]
  rw [Finset.card_filter]
  rw [Finset.range_eq_Ico]
  rw [show (0 : ℕ) + size = size from Nat.zero_add size]
  refine Finset.sum_congr rfl (fun i hi => ?_)
  have hle := hg.leafVal_le_one i
  by_cases hti : target < i
  · by_cases h1 : (applyOps (mkTree size) ops).leafVal i = 1
    · rw [if_pos hti, if_pos ⟨hti, h1⟩]
      exact h1
    · have h0 : (applyOps (mkTree size) ops).leafVal i = 0 := by omega
      rw [if_pos hti, if_neg (fun hc => h1 hc.2)]
      exact h0
  · rw [if_neg hti, if_neg (fun hc => hti hc.1)]

/-- Witness for C6 at a concrete input: `Tree(4)` with the valid sequence
`set 1; set 3; set 2; unset 3` and `target = 1`; the live leaves greater
than `1` are exactly `{2}`. -/
theorem C6_count_correct_witness :
    0 < 4 ∧
      validOpsB (mkTree 4) 4 [Op.set 1, Op.set 3, Op.set 2, Op.unset 3] = true ∧
      1 < 4 ∧
      (applyOps (mkTree 4) [Op.set 1, Op.set 3, Op.set 2, Op.unset 3]).count 1 =
        ((Finset.range 4).filter
          (fun i => 1 < i ∧
            (applyOps (mkTree 4)
              [Op.set 1, Op.set 3, Op.set 2, Op.unset 3]).leafVal i = 1)).card :=
  ⟨by decide, by decide, by decide,
    C6_count_correct 4 [Op.set 1, Op.set 3, Op.set 2, Op.unset 3] 1
      (by decide) (by decide) (by decide)⟩

/-- C7 counterexample: the claim states that an internal node covering
`[start, start + size)` stores `range_b = start + ceil(size/2) - 1`.  For the
tree `Tree(3)` the root covers `[0, 3)`, so the claimed `range_b` is
`0 + 2 - 1 = 1`, but `fill_tree` stores `start + size - 1 = 2` (the largest
leaf index of the node's own subtree, not of its left subtree). -/
theorem C7_range_b_counterexample :
    (mkTree 3).range_b = 2 ∧ (mkTree 3).range_b ≠ 0 + (3 + 1) / 2 - 1 := by
  constructor
  · rfl
  · decide

/-- One unfolding step of `fill_tree` for `size ≥ 2`, with the structural
fuel normalised away. -/
theorem fillTree_eq_inner (s n : ℕ) (h2 : 2 ≤ n) :
    fillTree s n = Node.inner (s + n - 1) 0
      (fillTree s ((n + 1) / 2)) (fillTree (s + (n + 1) / 2) (n / 2)) := by
  match n, h2 with
  | m + 2, _ =>
    show fillTreeAux (m + 2) s (m + 2) = _
    have hstep : fillTreeAux (m + 2) s (m + 2) =
        Node.inner (s + (m + 2) - 1) 0
          (fillTreeAux (m + 1) s ((m + 2 + 1) / 2))
          (fillTreeAux (m + 1) (s + (m + 2 + 1) / 2) ((m + 2) / 2)) := by
      rw [fillTreeAux]
      rw [if_neg (show ¬ m + 2 ≤ 1 by omega)]
    rw [hstep,
      fillTreeAux_congr ((m + 2 + 1) / 2) (m + 1) ((m + 2 + 1) / 2) s
        (by omega) (le_refl _),
      fillTreeAux_congr ((m + 2) / 2) (m + 1) ((m + 2) / 2) (s + (m + 2 + 1) / 2)
        (by omega) (le_refl _)]
    rfl

/-- C7 (amended): every node built by `fill_tree` for the range
`[start, start + size)` stores `range_b = start + size - 1` — the largest
leaf index of its *own* subtree; for an internal node (`size ≥ 2`) the
children are `fill_tree(start, ceil(size/2))` and
`fill_tree(start + ceil(size/2), floor(size/2))`, and the largest leaf index
of the left subtree, `start + ceil(size/2) - 1`, is stored as the *left
child's* `range_b` (which is the key `count`/`set`/`unset` branch on). -/
theorem C7_fillTree_structure (s n : ℕ) (h1 : 1 ≤ n) :
    (fillTree s n).range_b = s + n - 1 ∧
      (2 ≤ n →
        fillTree s n = Node.inner (s + n - 1) 0
          (fillTree s ((n + 1) / 2)) (fillTree (s + (n + 1) / 2) (n / 2)) ∧
        (fillTree s ((n + 1) / 2)).range_b = s + (n + 1) / 2 - 1) := by
  constructor
  · exact (fillTreeAux_good n s n h1 (le_refl n)).range_b_eq
  · intro h2
    refine ⟨fillTree_eq_inner s n h2, ?_⟩
    exact (fillTreeAux_good ((n + 1) / 2) s ((n + 1) / 2)
      (by omega) (le_refl _)).range_b_eq

/-- Witness for the amended C7 at `start = 0`, `size = 3`. -/
theorem C7_fillTree_structure_witness :
    1 ≤ 3 ∧ (fillTree 0 3).range_b = 0 + 3 - 1 ∧
      (2 ≤ 3 →
        fillTree 0 3 = Node.inner (0 + 3 - 1) 0
          (fillTree 0 ((3 + 1) / 2)) (fillTree (0 + (3 + 1) / 2) (3 / 2)) ∧
        (fillTree 0 ((3 + 1) / 2)).range_b = 0 + (3 + 1) / 2 - 1) :=
  ⟨by decide, (C7_fillTree_structure 0 3 (by decide)).1,
    (C7_fillTree_structure 0 3 (by decide)).2⟩

/-- C8: in the default (Fermi) mode, `line_addr_to_set` is the pure function
`((g1 XOR g2) + 32·b5) mod num_sets` where `b0..b31` are the little-endian
bits of `line_addr`, `g1 = b0 + 2·b1 + 4·b2 + 8·b3 + 16·b4` and
`g2 = b6 + 2·b7 + 4·b8 + 8·b10 + 16·b12`; its result is below `num_sets`
whenever `num_sets > 0`, and with `num_sets = 1` every address maps to set
`0`. -/
theorem C8_fermi_hash (line_addr addr num_sets cache_bytes : ℕ) :
    line_addr_to_set line_addr addr num_sets cache_bytes =
      (Nat.xor
          (lineBit line_addr 0 + 2 * lineBit line_addr 1 +
            4 * lineBit line_addr 2 + 8 * lineBit line_addr 3 +
            16 * lineBit line_addr 4)
          (lineBit line_addr 6 + 2 * lineBit line_addr 7 +
            4 * lineBit line_addr 8 + 8 * lineBit line_addr 10 +
            16 * lineBit line_addr 12) +
        32 * lineBit line_addr 5) % num_sets ∧
      (0 < num_sets → line_addr_to_set line_addr addr num_sets cache_bytes < num_sets) ∧
      (num_sets = 1 → line_addr_to_set line_addr addr num_sets cache_bytes = 0) := by
  refine ⟨?_, ?_, ?_⟩
  · unfold line_addr_to_set
    ring_nf
  · intro h
    exact Nat.mod_lt _ h
  · intro h
    subst h
    exact Nat.mod_one _

/-- Witness for C8 at `line_addr = 1234567`, `num_sets = 1`. -/
theorem C8_fermi_hash_witness :
    (0 < 1 → line_addr_to_set 1234567 0 1 0 < 1) ∧
      (1 = 1 → line_addr_to_set 1234567 0 1 0 = 0) :=
  ⟨(C8_fermi_hash 1234567 0 1 0).2.1, (C8_fermi_hash 1234567 0 1 0).2.2⟩

/-- C9: for every thread whose program counter is positive, `unschedule()`
rewinds the program counter by exactly one step; `unschedule()` right after
`schedule()` restores the thread to its prior state, and the next
`schedule()` returns the same access again. -/
theorem C9_unschedule_rewinds (t : Thread) :
    (0 < t.pc → (t.unschedule).pc = t.pc - 1) ∧
      (t.schedule.2).unschedule = t ∧
      ((t.schedule.2).unschedule).schedule = t.schedule := by
  refine ⟨fun _ => rfl, ?_, ?_⟩
  · simp [Thread.schedule, Thread.unschedule]
  · simp [Thread.schedule, Thread.unschedule]

/-- Witness for C9 on a concrete one-access thread with `pc = 1`. -/
theorem C9_unschedule_rewinds_witness :
    0 < (Thread.mk 1 [⟨0, 4, 1, 4, 7⟩] INF INF).pc ∧
      ((Thread.mk 1 [⟨0, 4, 1, 4, 7⟩] INF INF).unschedule).pc =
        (Thread.mk 1 [⟨0, 4, 1, 4, 7⟩] INF INF).pc - 1 :=
  ⟨by decide, (C9_unschedule_rewinds (Thread.mk 1 [⟨0, 4, 1, 4, 7⟩] INF INF)).1
    (by decide)⟩

/-- C10: after `add(a, t1, s)` and `add(a, t2, s)` with `t1 ≠ t2`,
`get_num_requests()` returns `1`; after `get_requests(t1)` it returns `0`,
although a request with address `a` is still queued at arrival time `t2`. -/
theorem C10_unique_requests (a t1 t2 s : ℕ) (hne : t1 ≠ t2) (ha : a < U32) :
    ((Requests.init.add a t1 s).add a t2 s).get_num_requests = 1 ∧
      ((((Requests.init.add a t1 s).add a t2 s).get_requests t1).2).get_num_requests = 0 ∧
      reqListAt ((((Requests.init.add a t1 s).add a t2 s).get_requests t1).2).request_list t2 =
        [⟨a, s⟩] := by
  have hmod : a % U32 = a := Nat.mod_eq_of_lt ha
  refine ⟨?_, ?_, ?_⟩
  · simp [Requests.add, Requests.init, Requests.get_num_requests, setInsert, hmod]
  · simp [Requests.add, Requests.init, Requests.get_num_requests,
      Requests.get_requests, setInsert, reqListPush, reqListAt, reqListErase,
      hmod, hne, List.find?, beq_iff_eq]
  · simp [Requests.add, Requests.init, Requests.get_requests, setInsert,
      reqListPush, reqListAt, reqListErase, hmod, hne, List.find?, beq_iff_eq,
      Ne.symm hne]

/-- Witness for C10 at `a = 5`, `t1 = 3`, `t2 = 7`, `s = 0`. -/
theorem C10_unique_requests_witness :
    (3 ≠ 7 ∧ 5 < U32) ∧
      ((Requests.init.add 5 3 0).add 5 7 0).get_num_requests = 1 ∧
      ((((Requests.init.add 5 3 0).add 5 7 0).get_requests 3).2).get_num_requests = 0 :=
  ⟨⟨by decide, by norm_num [U32]⟩,
    (C10_unique_requests 5 3 7 0 (by decide) (by norm_num [U32])).1,
    (C10_unique_requests 5 3 7 0 (by decide) (by norm_num [U32])).2.1⟩

/-- C4 counterexample: two threads in one warp read the same 128-byte line at
byte addresses `0` and `4`.  One application of the scheduler leaves the
representative access with `width = 2`; a second application with the same
inputs increments it to `width = 3`, so the scheduler is not idempotent on
the `width` fields. -/
theorem C4_not_idempotent_counterexample :
    ((getThread (schedOnce 128 (twoThreads 0 3 4 7 4)) 0).accesses.getD 0
      default).width = 2 ∧
    ((getThread (schedOnce 128 (schedOnce 128 (twoThreads 0 3 4 7 4)))
      0).accesses.getD 0 default).width = 3 := by
  decide

/-- At thread position `0` of a warp, the backward scan of the coalescing
loop is empty, so nothing changes. -/
theorem coalesceThread_zero (hw : Settings) (warpList : List ℕ) (aidx : ℕ)
    (ths : List Thread) : coalesceThread hw warpList aidx 0 ths = ths := by
  simp [coalesceThread, Nat.zero_sub, findMatch]

/-- The hierarchy-assignment phase of `schedule_threads` on a two-thread
block of size `2`: both threads land in warp `0`, and coalescing then runs
on the warp `[0, 1]`. -/
theorem schedOnce_unfold (ls : ℕ) (t0 t1 : Thread) :
    schedOnce ls [t0, t1] =
      coalesceWarp (fermiSettings ls) [t0.set_warp 0, t1.set_warp 0] [0, 1] := by
  have hr2 : List.range 2 = [0, 1] := rfl
  simp only [schedOnce, scheduleThreads, hr2, List.length_cons,
    List.length_nil, List.foldl_cons, List.foldl_nil, coalesce]
  norm_num [ceilDiv, fermiSettings, getThread, setThread, pushAt, List.getD,
    List.set]

/-- Effect of the coalescing stage on a warp of two threads that each make
one access to the same cache line at different byte addresses (access size
not 8 or 16 bytes): thread 1's access is absorbed (`width = 0`), thread 0's
access gets `end_address` raised to the maximum and `width` incremented —
regardless of the incoming `width`/`end_address` values, which is why a
second application increments `width` again. -/
theorem coalesceWarp_same_line (ls a1 a2 b E1 E2 w1 w2 B1 B2 : ℕ)
    (hline : a1 / ls = a2 / ls) (haddr : a1 ≠ a2) (hb8 : b ≠ 8)
    (hb16 : b ≠ 16) :
    coalesceWarp (fermiSettings ls)
        [⟨0, [⟨0, a1, w1, b, E1⟩], 0, B1⟩,
          ⟨0, [⟨0, a2, w2, b, E2⟩], 0, B2⟩] [0, 1] =
      [⟨0, [⟨0, a1, w1 + 1, b, max E1 E2⟩], 0, B1⟩,
        ⟨0, [⟨0, a2, 0, b, E2⟩], 0, B2⟩] := by
  have h21 : ¬ (a2 = a1) := fun h => haddr h.symm
  have hsl : schedLen (fermiSettings ls) b = 32 := by
    simp [schedLen, fermiSettings, hb8, hb16]
  have step1 : coalesceWarp (fermiSettings ls)
      [⟨0, [⟨0, a1, w1, b, E1⟩], 0, B1⟩,
        ⟨0, [⟨0, a2, w2, b, E2⟩], 0, B2⟩] [0, 1] =
      coalesceThread (fermiSettings ls) [0, 1] 0 1
        (coalesceThread (fermiSettings ls) [0, 1] 0 0
          [⟨0, [⟨0, a1, w1, b, E1⟩], 0, B1⟩,
            ⟨0, [⟨0, a2, w2, b, E2⟩], 0, B2⟩]) := rfl
  rw [step1, coalesceThread_zero]
  simp only [coalesceThread, getThread, List.getD, List.length_cons,
    List.length_nil, hsl]
  norm_num [List.range', findMatch, getThread, List.getD, fermiSettings,
    hline, h21, modifyAccess, setThread, List.set, schedLen, hb8, hb16]

/-- Combination: one full `schedule_threads` application on the two-thread
block. -/
theorem schedOnce_same_line (ls a1 a2 b E1 E2 w1 w2 W1 W2 B1 B2 : ℕ)
    (hline : a1 / ls = a2 / ls) (haddr : a1 ≠ a2) (hb8 : b ≠ 8)
    (hb16 : b ≠ 16) :
    schedOnce ls [⟨0, [⟨0, a1, w1, b, E1⟩], W1, B1⟩,
        ⟨0, [⟨0, a2, w2, b, E2⟩], W2, B2⟩] =
      [⟨0, [⟨0, a1, w1 + 1, b, max E1 E2⟩], 0, B1⟩,
        ⟨0, [⟨0, a2, 0, b, E2⟩], 0, B2⟩] := by
  rw [schedOnce_unfold]
  exact coalesceWarp_same_line ls a1 a2 b E1 E2 w1 w2 B1 B2
    hline haddr hb8 hb16

/-- C4 (amended): `schedule_threads` is *not* idempotent.  On a warp where an
access is absorbed from a different byte address, a second application with
the same inputs leaves every `end_address` and the absorbed (`width = 0`)
pattern unchanged but increments the representative's `width` again (from
`2` to `3` here); with assertions enabled the second call would already
abort in `Thread::set_warp`. -/
theorem C4_second_application_width (ls a1 e1 a2 e2 b : ℕ)
    (hline : a1 / ls = a2 / ls) (haddr : a1 ≠ a2) (hb8 : b ≠ 8)
    (hb16 : b ≠ 16) :
    schedOnce ls (twoThreads a1 e1 a2 e2 b) =
      [⟨0, [⟨0, a1, 2, b, max e1 e2⟩], 0, INF⟩,
        ⟨0, [⟨0, a2, 0, b, e2⟩], 0, INF⟩] ∧
    schedOnce ls (schedOnce ls (twoThreads a1 e1 a2 e2 b)) =
      [⟨0, [⟨0, a1, 3, b, max e1 e2⟩], 0, INF⟩,
        ⟨0, [⟨0, a2, 0, b, e2⟩], 0, INF⟩] := by
  have h1 := schedOnce_same_line ls a1 a2 b e1 e2 1 1 INF INF INF INF
    hline haddr hb8 hb16
  have hfirst : schedOnce ls (twoThreads a1 e1 a2 e2 b) =
      [⟨0, [⟨0, a1, 2, b, max e1 e2⟩], 0, INF⟩,
        ⟨0, [⟨0, a2, 0, b, e2⟩], 0, INF⟩] := h1
  refine ⟨hfirst, ?_⟩
  rw [hfirst]
  have h2 := schedOnce_same_line ls a1 a2 b (max e1 e2) e2 2 0 0 0 INF INF
    hline haddr hb8 hb16
  rw [h2, max_assoc, max_self]

/-- Witness for the amended C4 at `ls = 128`, addresses `0` and `4`,
4-byte accesses. -/
theorem C4_second_application_width_witness :
    ((0 : ℕ) / 128 = 4 / 128 ∧ (0 : ℕ) ≠ 4 ∧ (4 : ℕ) ≠ 8 ∧ (4 : ℕ) ≠ 16) ∧
      schedOnce 128 (twoThreads 0 3 4 7 4) =
        [⟨0, [⟨0, 0, 2, 4, max 3 7⟩], 0, INF⟩,
          ⟨0, [⟨0, 4, 0, 4, 7⟩], 0, INF⟩] ∧
      schedOnce 128 (schedOnce 128 (twoThreads 0 3 4 7 4)) =
        [⟨0, [⟨0, 0, 3, 4, max 3 7⟩], 0, INF⟩,
          ⟨0, [⟨0, 4, 0, 4, 7⟩], 0, INF⟩] :=
  ⟨⟨by decide, by decide, by decide, by decide⟩,
    (C4_second_application_width 128 0 3 4 7 4 (by decide) (by decide)
      (by decide) (by decide)).1,
    (C4_second_application_width 128 0 3 4 7 4 (by decide) (by decide)
      (by decide) (by decide)).2⟩

/-- C1 counterexample: with `cache_ways = 2`, an access of distance exactly
`2` is a miss in the engine, and with all four histograms equal to
`{2 ↦ 1}` the classifier counts it as a *hit* (run 0), not as capacity, and
the residual of the decomposition is `0` — the boundary access does not fall
into the residual term as claimed; it is absent from every miss term. -/
theorem C1_boundary_counterexample :
    isMiss 2 2 = true ∧
      capacityOf [(2, 1)] 2 = 0 ∧
      hitsOf [(2, 1)] 2 = 1 ∧
      restOf (List.replicate 4 [(2, 1)]) smallSettings = 0 := by
  refine ⟨rfl, rfl, rfl, ?_⟩
  simp [restOf, missOf, compulsoryOf, capacityOf, smallSettings, INF,
    List.replicate, List.getD]

theorem compulsoryOf_shift (h : List (ℕ × ℕ)) (a : ℕ) :
    h.foldl (fun acc p => if p.1 = INF then acc + p.2 else acc) a =
      a + compulsoryOf h := by
  induction h generalizing a with
  | nil => simp [compulsoryOf]
  | cons p t ih =>
    show List.foldl _ (if p.1 = INF then a + p.2 else a) t = _
    rw [ih]
    have : compulsoryOf (p :: t) =
        (if p.1 = INF then 0 + p.2 else 0) + compulsoryOf t := by
      show List.foldl _ (if p.1 = INF then 0 + p.2 else 0) t = _
      rw [ih]
    rw [this]
    split <;> omega

theorem capacityOf_shift (h : List (ℕ × ℕ)) (w a : ℕ) :
    h.foldl (fun acc p =>
        if p.1 = INF then acc else if w < p.1 then acc + p.2 else acc) a =
      a + capacityOf h w := by
  induction h generalizing a with
  | nil => simp [capacityOf]
  | cons p t ih =>
    show List.foldl _
      (if p.1 = INF then a else if w < p.1 then a + p.2 else a) t = _
    rw [ih]
    have : capacityOf (p :: t) w =
        (if p.1 = INF then 0 else if w < p.1 then 0 + p.2 else 0) +
          capacityOf t w := by
      show List.foldl _ _ t = _
      rw [ih]
    rw [this]
    split
    · omega
    · split <;> omega

theorem hitsOf_shift (h : List (ℕ × ℕ)) (w a : ℕ) :
    h.foldl (fun acc p =>
        if p.1 = INF then acc else if w < p.1 then acc else acc + p.2) a =
      a + hitsOf h w := by
  induction h generalizing a with
  | nil => simp [hitsOf]
  | cons p t ih =>
    show List.foldl _
      (if p.1 = INF then a else if w < p.1 then a else a + p.2) t = _
    rw [ih]
    have : hitsOf (p :: t) w =
        (if p.1 = INF then 0 else if w < p.1 then 0 else 0 + p.2) +
          hitsOf t w := by
      show List.foldl _ _ t = _
      rw [ih]
    rw [this]
    split
    · omega
    · split <;> omega

/-- C1 (amended): the engine classifies an access as a miss exactly when its
distance is `INF` or at least `cache_ways` (the two conditions coincide
because `cache_ways ≤ INF`); an access whose distance equals exactly
`cache_ways` is a miss in the engine but the classifier counts it neither as
capacity nor as compulsory — its frequency is added to the run-0 *hit*
count, so it does not reach the decomposition's miss terms or its residual.
-/
theorem C1_boundary_classification (d w n : ℕ) (h : List (ℕ × ℕ))
    (hwle : w ≤ INF) (hwne : w ≠ INF) :
    (isMiss d w = true ↔ (d = INF ∨ w ≤ d)) ∧
      isMiss w w = true ∧
      capacityOf ((w, n) :: h) w = capacityOf h w ∧
      compulsoryOf ((w, n) :: h) = compulsoryOf h ∧
      hitsOf ((w, n) :: h) w = n + hitsOf h w := by
  refine ⟨?_, ?_, ?_, ?_, ?_⟩
  · simp only [isMiss, decide_eq_true_eq]
    constructor
    · exact fun hle => Or.inr hle
    · rintro (hd | hle)
      · subst hd; exact hwle
      · exact hle
  · simp [isMiss]
  · show List.foldl _ (if (w, n).1 = INF then 0
      else if w < (w, n).1 then 0 + n else 0) h = _
    rw [capacityOf_shift]
    simp [hwne]
  · show List.foldl _ (if (w, n).1 = INF then 0 + n else 0) h = _
    rw [compulsoryOf_shift]
    simp [hwne]
  · show List.foldl _ (if (w, n).1 = INF then 0
      else if w < (w, n).1 then 0 else 0 + n) h = _
    rw [hitsOf_shift]
    simp [hwne, Nat.add_comm]

/-- Witness for the amended C1 at `d = 5`, `w = 2`, bin `(2, 3)` on the
histogram `[(7, 1)]`. -/
theorem C1_boundary_classification_witness :
    ((2 : ℕ) ≤ INF ∧ (2 : ℕ) ≠ INF) ∧
      (isMiss 5 2 = true ↔ ((5 : ℕ) = INF ∨ 2 ≤ 5)) ∧
      isMiss 2 2 = true ∧
      capacityOf [(2, 3), (7, 1)] 2 = capacityOf [(7, 1)] 2 ∧
      compulsoryOf [(2, 3), (7, 1)] = compulsoryOf [(7, 1)] ∧
      hitsOf [(2, 3), (7, 1)] 2 = 3 + hitsOf [(7, 1)] 2 :=
  ⟨⟨by norm_num [INF], by norm_num [INF]⟩,
    (C1_boundary_classification 5 2 3 [(7, 1)] (by norm_num [INF])
      (by norm_num [INF]))⟩

/-! ### List helpers for the engine invariants -/

theorem takeSuccGetD {α : Type} [Inhabited α] :
    ∀ (l : List α) (pc : ℕ), pc < l.length →
      l.take (pc + 1) = l.take pc ++ [l.getD pc default]
  | [], pc, h => absurd h (by simp)
  | a :: t, 0, _ => by simp
  | a :: t, pc + 1, h => by
    rw [List.take_succ_cons, List.take_succ_cons, List.getD_cons_succ,
      List.cons_append, takeSuccGetD t pc (by simpa using h)]

theorem dropConsGetD {α : Type} [Inhabited α] :
    ∀ (l : List α) (pc : ℕ), pc < l.length →
      l.drop pc = l.getD pc default :: l.drop (pc + 1)
  | [], pc, h => absurd h (by simp)
  | a :: t, 0, _ => by simp
  | a :: t, pc + 1, h => by
    rw [List.drop_succ_cons, List.drop_succ_cons, List.getD_cons_succ]
    exact dropConsGetD t pc (by simpa using h)

theorem setGetDSelf {α : Type} [Inhabited α] :
    ∀ (l : List α) (j : ℕ), j < l.length → l.set j (l.getD j default) = l
  | [], j, h => absurd h (by simp)
  | a :: t, 0, _ => by simp
  | a :: t, j + 1, h => by
    simp only [List.set, List.getD_cons_succ]
    rw [setGetDSelf t j (by simpa using h)]

theorem getDSetNe {α : Type} [Inhabited α] :
    ∀ (l : List α) (j i : ℕ) (v : α), i ≠ j →
      (l.set j v).getD i default = l.getD i default
  | [], _, _, _, _ => rfl
  | a :: t, 0, 0, v, h => absurd rfl h
  | a :: t, 0, i + 1, v, _ => by simp [List.set]
  | a :: t, j + 1, 0, v, _ => by simp [List.set]
  | a :: t, j + 1, i + 1, v, h => by
    simp only [List.set, List.getD_cons_succ]
    exact getDSetNe t j i v (fun hh => h (by omega))

theorem getDSetSelf {α : Type} [Inhabited α] :
    ∀ (l : List α) (j : ℕ) (v : α), j < l.length →
      (l.set j v).getD j default = v
  | [], j, v, h => absurd h (by simp)
  | a :: t, 0, v, _ => rfl
  | a :: t, j + 1, v, h => by
    simp only [List.set, List.getD_cons_succ]
    exact getDSetSelf t j v (by simpa using h)

theorem mapSumSet {α : Type} [Inhabited α] (f : α → ℕ) :
    ∀ (l : List α) (j : ℕ) (v : α), j < l.length →
      ((l.set j v).map f).sum + f (l.getD j default) = (l.map f).sum + f v
  | [], j, v, h => absurd h (by simp)
  | a :: t, 0, v, _ => by simp [List.set]; omega
  | a :: t, j + 1, v, h => by
    simp only [List.set, List.map_cons, List.sum_cons, List.getD_cons_succ]
    have := mapSumSet f t j v (by simpa using h)
    omega

theorem mapJoinSet {α : Type} [Inhabited α] (g : α → List ℕ) :
    ∀ (l : List α) (j : ℕ) (v : α), j < l.length →
      ((l.set j v).map g).flatten =
        ((l.take j).map g).flatten ++ g v ++ ((l.drop (j + 1)).map g).flatten
  | [], j, v, h => absurd h (by simp)
  | a :: t, 0, v, _ => by simp
  | a :: t, j + 1, v, h => by
    rw [List.set_cons_succ, List.map_cons, List.flatten_cons,
      List.take_succ_cons, List.map_cons, List.flatten_cons,
      List.drop_succ_cons, mapJoinSet g t j v (by simpa using h)]
    simp [List.append_assoc]

theorem mapJoinDecomp {α : Type} [Inhabited α] (g : α → List ℕ)
    (l : List α) (j : ℕ) (h : j < l.length) :
    (l.map g).flatten =
      ((l.take j).map g).flatten ++ g (l.getD j default) ++
        ((l.drop (j + 1)).map g).flatten := by
  have := mapJoinSet g l j (l.getD j default) h
  rwa [setGetDSelf l j h] at this

theorem lookupD_nil (a d : ℕ) : lookupD [] a d = d := rfl

theorem lookupD_cons (p : ℕ × ℕ) (rest : List (ℕ × ℕ)) (a d : ℕ) :
    lookupD (p :: rest) a d = if p.1 = a then p.2 else lookupD rest a d := by
  by_cases h : p.1 = a
  · simp [lookupD, List.find?, h]
  · simp only [lookupD, List.find?]
    rw [show (p.1 == a) = false by simpa using h]
    rw [if_neg h]

theorem lookupD_setKey (P : List (ℕ × ℕ)) (k v a d : ℕ) :
    lookupD (setKey P k v) a d = if a = k then v else lookupD P a d := by
  induction P with
  | nil =>
    show lookupD [(k, v)] a d = _
    rw [lookupD_cons, lookupD_nil]
    by_cases h : a = k
    · simp [h]
    · rw [if_neg (fun hh => h hh.symm), if_neg h]
  | cons p rest ih =>
    simp only [setKey]
    by_cases hpk : p.1 = k
    · rw [if_pos hpk, lookupD_cons, lookupD_cons]
      by_cases hak : a = k
      · simp [hak]
      · rw [if_neg (fun hh : k = a => hak hh.symm), if_neg hak,
          if_neg (show ¬ p.1 = a by omega)]
    · rw [if_neg hpk, lookupD_cons, lookupD_cons, ih]
      by_cases hpa : p.1 = a
      · have hak : ¬ a = k := by omega
        rw [if_pos hpa, if_pos hpa, if_neg hak]
      · rw [if_neg hpa, if_neg hpa]

theorem histTotal_bump (h : List (ℕ × ℕ)) (d : ℕ) :
    histTotal (bump h d) = histTotal h + 1 := by
  induction h with
  | nil => rfl
  | cons p t ih =>
    simp only [bump]
    by_cases hp : p.1 = d
    · rw [if_pos hp]
      simp [histTotal]
      omega
    · rw [if_neg hp]
      simp only [histTotal, List.map_cons, List.sum_cons] at ih ⊢
      omega

theorem compulsoryOf_bump (h : List (ℕ × ℕ)) (d : ℕ) :
    compulsoryOf (bump h d) =
      compulsoryOf h + (if d = INF then 1 else 0) := by
  induction h with
  | nil =>
    by_cases hd : d = INF
    · simp [bump, compulsoryOf, hd]
    · simp [bump, compulsoryOf, hd]
  | cons p t ih =>
    have hcons : ∀ (q : ℕ × ℕ) (l : List (ℕ × ℕ)), compulsoryOf (q :: l) =
        (if q.1 = INF then q.2 else 0) + compulsoryOf l := by
      intro q l
      show List.foldl _ (if q.1 = INF then 0 + q.2 else 0) l = _
      rw [compulsoryOf_shift]
      split <;> omega
    simp only [bump]
    by_cases hp : p.1 = d
    · rw [if_pos hp, hcons, hcons]
      subst hp
      split <;> omega
    · rw [if_neg hp, hcons, hcons, ih]
      omega

/-! ### Thread-level facts for the engine invariants -/

theorem getThread_default (ths : List Thread) (tid : ℕ)
    (h : ths.length ≤ tid) : getThread ths tid = default :=
  List.getD_eq_default _ _ h

theorem getThread_lt (ths : List Thread) (tid : ℕ)
    (h : ¬ (getThread ths tid).is_done = true) : tid < ths.length := by
  by_contra hlen
  rw [getThread_default ths tid (by omega)] at h
  exact h rfl

theorem getThread_mem (ths : List Thread) (tid : ℕ) (h : tid < ths.length) :
    getThread ths tid ∈ ths := by
  rw [getThread, List.getD_eq_getElem _ _ h]
  exact List.getElem_mem h

theorem pc_lt_of_not_done (t : Thread) (hle : t.pc ≤ t.accesses.length)
    (h : ¬ t.is_done = true) : t.pc < t.accesses.length := by
  simp only [Thread.is_done, beq_iff_eq] at h
  omega

theorem pcLe_set (ths : List Thread) (tid : ℕ) (v : Thread)
    (hall : ∀ t ∈ ths, t.pc ≤ t.accesses.length)
    (hv : v.pc ≤ v.accesses.length) :
    ∀ t ∈ setThread ths tid v, t.pc ≤ t.accesses.length := by
  intro t ht
  rcases List.mem_or_eq_of_mem_set ht with hmem | heq
  · exact hall t hmem
  · subst heq; exact hv

/-- `thLines` after one `schedule()` step: the consumed access's line is
appended when the access is enabled. -/
theorem thLines_pcInc (ls : ℕ) (t : Thread)
    (hpc : t.pc < t.accesses.length) :
    thLines ls { t with pc := t.pc + 1 } =
      thLines ls t ++
        (if (t.accesses.getD t.pc default).width != 0
         then [(t.accesses.getD t.pc default).address / ls] else []) := by
  simp only [thLines]
  rw [takeSuccGetD t.accesses t.pc hpc, List.filter_append, List.map_append]
  congr 1
  simp only [List.filter_singleton,
    ← List.getD_eq_getElem?_getD t.accesses t.pc default]
  by_cases hw : (t.accesses.getD t.pc default).width != 0
  · rw [if_pos hw, hw]
    rfl
  · rw [if_neg hw,
      show ((t.accesses.getD t.pc default).width != 0) = false by
        simpa using hw]
    rfl

/-- `thRem` after one `schedule()` step. -/
theorem thRem_pcInc (t : Thread) (hpc : t.pc < t.accesses.length) :
    thRem t =
      (if (t.accesses.getD t.pc default).width != 0 then 1 else 0) +
        thRem { t with pc := t.pc + 1 } := by
  simp only [thRem]
  rw [dropConsGetD t.accesses t.pc hpc, List.filter_cons]
  by_cases hw : (t.accesses.getD t.pc default).width != 0
  · rw [if_pos hw, if_pos hw]
    simp only [List.length_cons]
    omega
  · rw [if_neg hw, if_neg hw]
    simp

/-- `schedule` then `unschedule` is the identity (used by the backpressure
path). -/
theorem schedule_unschedule_id (t : Thread) :
    (t.schedule.2).unschedule = t := by
  simp [Thread.schedule, Thread.unschedule]

theorem prefLines_set_decomp (ls : ℕ) (ths : List Thread) (tid : ℕ)
    (v : Thread) (htid : tid < ths.length) :
    prefLinesList ls (setThread ths tid v) =
      ((ths.take tid).map (thLines ls)).flatten ++ thLines ls v ++
        ((ths.drop (tid + 1)).map (thLines ls)).flatten :=
  mapJoinSet (thLines ls) ths tid v htid

theorem prefLines_decomp (ls : ℕ) (ths : List Thread) (tid : ℕ)
    (htid : tid < ths.length) :
    prefLinesList ls ths =
      ((ths.take tid).map (thLines ls)).flatten ++
        thLines ls (getThread ths tid) ++
        ((ths.drop (tid + 1)).map (thLines ls)).flatten :=
  mapJoinDecomp (thLines ls) ths tid htid

/-- Replacing thread `tid` with a thread whose consumed lines extend the old
ones by `extra` preserves membership and adds `extra`. -/
theorem prefLines_set_append (ls : ℕ) (ths : List Thread) (tid : ℕ)
    (v : Thread) (extra : List ℕ) (htid : tid < ths.length)
    (hv : thLines ls v = thLines ls (getThread ths tid) ++ extra) :
    (∀ x ∈ prefLinesList ls ths, x ∈ prefLinesList ls (setThread ths tid v)) ∧
      (∀ x ∈ extra, x ∈ prefLinesList ls (setThread ths tid v)) := by
  rw [prefLines_set_decomp ls ths tid v htid, hv]
  constructor
  · intro x hx
    rw [prefLines_decomp ls ths tid htid] at hx
    simp only [List.mem_append] at hx ⊢
    tauto
  · intro x hx
    simp only [List.mem_append]
    tauto

theorem prefLines_set_eq (ls : ℕ) (ths : List Thread) (tid : ℕ) (v : Thread)
    (htid : tid < ths.length)
    (hv : thLines ls v = thLines ls (getThread ths tid)) :
    prefLinesList ls (setThread ths tid v) = prefLinesList ls ths := by
  rw [prefLines_set_decomp ls ths tid v htid, hv,
    ← prefLines_decomp ls ths tid htid]

theorem prefLines_set_toFinset (ls : ℕ) (ths : List Thread) (tid : ℕ)
    (v : Thread) (la : ℕ) (htid : tid < ths.length)
    (hv : thLines ls v = thLines ls (getThread ths tid) ++ [la]) :
    (prefLinesList ls (setThread ths tid v)).toFinset =
      (prefLinesList ls ths).toFinset ∪ {la} := by
  rw [prefLines_set_decomp ls ths tid v htid, hv,
    prefLines_decomp ls ths tid htid]
  simp only [List.toFinset_append]
  ext x
  simp only [Finset.mem_union, List.mem_toFinset, List.mem_singleton,
    Finset.mem_singleton]
  tauto

theorem mapSet_eq {α β : Type} [Inhabited α] (f : α → β) :
    ∀ (l : List α) (j : ℕ) (v : α), f v = f (l.getD j default) →
      (l.set j v).map f = l.map f
  | [], _, _, _ => rfl
  | a :: t, 0, v, h => by simp only [List.set, List.map_cons]; rw [h]; rfl
  | a :: t, j + 1, v, h => by
    simp only [List.set, List.map_cons]
    rw [mapSet_eq f t j v (by simpa using h)]

/-! ### Request-book and drain lemmas -/

theorem reqListPush_mem :
    ∀ (l : List (ℕ × List Request)) (t : ℕ) (r : Request)
      (p : ℕ × List Request), p ∈ reqListPush l t r →
      ∀ x ∈ p.2, x = r ∨ ∃ q ∈ l, x ∈ q.2
  | [], t, r, p, hp => by
    intro x hx
    simp only [reqListPush, List.mem_singleton] at hp
    subst hp
    simp only [List.mem_singleton] at hx
    exact Or.inl hx
  | q :: rest, t, r, p, hp => by
    intro x hx
    simp only [reqListPush] at hp
    by_cases hq : q.1 = t
    · rw [if_pos hq] at hp
      rcases List.mem_cons.mp hp with hp1 | hp2
      · subst hp1
        rcases List.mem_append.mp hx with hx1 | hx2
        · exact Or.inr ⟨q, List.mem_cons_self q rest, hx1⟩
        · simp only [List.mem_singleton] at hx2
          exact Or.inl hx2
      · exact Or.inr ⟨p, List.mem_cons_of_mem q hp2, hx⟩
    · rw [if_neg hq] at hp
      rcases List.mem_cons.mp hp with hp1 | hp2
      · subst hp1
        exact Or.inr ⟨p, List.mem_cons_self p rest, hx⟩
      · rcases reqListPush_mem rest t r p hp2 x hx with h1 | ⟨q', hq', hx'⟩
        · exact Or.inl h1
        · exact Or.inr ⟨q', List.mem_cons_of_mem q hq', hx'⟩

theorem reqListErase_sub :
    ∀ (l : List (ℕ × List Request)) (t : ℕ) (p : ℕ × List Request),
      p ∈ reqListErase l t → p ∈ l
  | [], _, _, hp => absurd hp (by simp [reqListErase])
  | q :: rest, t, p, hp => by
    simp only [reqListErase] at hp
    by_cases hq : q.1 = t
    · rw [if_pos hq] at hp
      exact List.mem_cons_of_mem q hp
    · rw [if_neg hq] at hp
      rcases List.mem_cons.mp hp with hp1 | hp2
      · subst hp1; exact List.mem_cons_self p rest
      · exact List.mem_cons_of_mem q (reqListErase_sub rest t p hp2)

theorem reqListAt_sub (l : List (ℕ × List Request)) (t : ℕ) (r : Request)
    (hr : r ∈ reqListAt l t) : ∃ p ∈ l, r ∈ p.2 := by
  unfold reqListAt at hr
  cases hf : l.find? (fun p => p.1 == t) with
  | none => rw [hf] at hr; simp at hr
  | some p =>
    rw [hf] at hr
    exact ⟨p, List.mem_of_find?_eq_some hf, hr⟩

theorem reqAddrsIn_init (L : List ℕ) : reqAddrsIn Requests.init L := by
  intro p hp
  simp [Requests.init] at hp

theorem reqAddrsIn_add (rq : Requests) (L : List ℕ) (addr t s : ℕ)
    (h : reqAddrsIn rq L) (haddr : addr ∈ L) :
    reqAddrsIn (rq.add addr t s) L := by
  intro p hp x hx
  rcases reqListPush_mem rq.request_list t ⟨addr, s⟩ p hp x hx with h1 | ⟨q, hq, hx'⟩
  · subst h1; exact haddr
  · exact h q hq x hx'

theorem reqAddrsIn_mono (rq : Requests) (L L' : List ℕ)
    (h : reqAddrsIn rq L) (hsub : ∀ x ∈ L, x ∈ L') : reqAddrsIn rq L' :=
  fun p hp x hx => hsub x.addr (h p hp x hx)

theorem reqAddrsIn_getRequests (rq : Requests) (L : List ℕ) (t : ℕ)
    (h : reqAddrsIn rq L) : reqAddrsIn (rq.get_requests t).2 L := by
  intro p hp x hx
  exact h p (reqListErase_sub rq.request_list t p hp) x hx

theorem reqAddrsAt (rq : Requests) (L : List ℕ) (t : ℕ)
    (h : reqAddrsIn rq L) :
    ∀ r ∈ reqListAt rq.request_list t, r.addr ∈ L := by
  intro r hr
  obtain ⟨p, hp, hrp⟩ := reqListAt_sub rq.request_list t r hr
  exact h p hp r hrp

theorem reqAddrsIn_getD (lst : List Requests) (L : List ℕ) (s : ℕ)
    (h : ∀ rq ∈ lst, reqAddrsIn rq L) : reqAddrsIn (lst.getD s default) L := by
  by_cases hs : s < lst.length
  · rw [List.getD_eq_getElem _ _ hs]
    exact h _ (List.getElem_mem hs)
  · rw [List.getD_eq_default _ _ (by omega)]
    exact reqAddrsIn_init L

theorem processRequestsList_P (L : List ℕ) :
    ∀ (reqs : List Request) (P : List (ℕ × ℕ)) (tree : Node) (counter : ℕ),
      (∀ r ∈ reqs, r.addr ∈ L) →
      (∀ a, lookupD P a 0 ≠ 0 → a ∈ L) →
      ∀ a, lookupD (processRequestsList P tree counter reqs).1 a 0 ≠ 0 → a ∈ L
  | [], P, tree, counter, _, hP, a, ha => hP a ha
  | req :: rest, P, tree, counter, hreqs, hP, a, ha => by
    apply processRequestsList_P L rest _ _ _
      (fun r hr => hreqs r (List.mem_cons_of_mem req hr)) _ a ha
    intro a' ha'
    rw [lookupD_setKey] at ha'
    by_cases haq : a' = req.addr
    · subst haq
      exact hreqs req (List.mem_cons_self req rest)
    · rw [if_neg haq] at ha'
      exact hP a' ha'

theorem drainOne_P (rq : Requests) (t s : ℕ) (P : List (ℕ × ℕ))
    (B : List Node) (C : List ℕ) (L : List ℕ)
    (hrq : reqAddrsIn rq L) (hP : ∀ a, lookupD P a 0 ≠ 0 → a ∈ L) :
    (∀ a, lookupD (drainOne rq t s P B C).2.1 a 0 ≠ 0 → a ∈ L) ∧
      reqAddrsIn (drainOne rq t s P B C).1 L := by
  unfold drainOne
  by_cases hh : rq.has_requests t
  · rw [if_pos hh]
    refine ⟨?_, ?_⟩
    · exact processRequestsList_P L (reqListAt rq.request_list t) P
        (B.getD s default) (C.getD s 0) (reqAddrsAt rq L t hrq) hP
    · exact reqAddrsIn_getRequests rq L t hrq
  · rw [if_neg hh]
    exact ⟨hP, hrq⟩

theorem drainSet_threads (st : EngineState) (s : ℕ) :
    (drainSet st s).threads = st.threads := rfl

theorem drainSet_distances (st : EngineState) (s : ℕ) :
    (drainSet st s).distances = st.distances := rfl

theorem drainSet_pool (st : EngineState) (s : ℕ) :
    (drainSet st s).pool = st.pool := rfl

theorem drainSet_inv (ls : ℕ) (st : EngineState) (s : ℕ) (h : Inv ls st) :
    Inv ls (drainSet st s) := by
  obtain ⟨hpc, hP, hm, hh, hcard⟩ := h
  have hhit := drainOne_P (st.requests_hit.getD s default) st.timestamp s
    st.P st.B st.set_counters (prefLinesList ls st.threads)
    (reqAddrsIn_getD st.requests_hit _ s hh) hP
  have hmiss := drainOne_P (st.requests_miss.getD s default) st.timestamp s
    (drainOne (st.requests_hit.getD s default) st.timestamp s
      st.P st.B st.set_counters).2.1
    (drainOne (st.requests_hit.getD s default) st.timestamp s
      st.P st.B st.set_counters).2.2.1
    (drainOne (st.requests_hit.getD s default) st.timestamp s
      st.P st.B st.set_counters).2.2.2
    (prefLinesList ls st.threads)
    (reqAddrsIn_getD st.requests_miss _ s hm) hhit.1
  constructor
  · rw [drainSet_threads]
    exact hpc
  · intro a ha
    rw [drainSet_threads]
    exact hmiss.1 a ha
  · intro rq hrq
    rw [drainSet_threads]
    rcases List.mem_or_eq_of_mem_set hrq with h1 | h2
    · exact hm rq h1
    · subst h2
      exact hmiss.2
  · intro rq hrq
    rw [drainSet_threads]
    rcases List.mem_or_eq_of_mem_set hrq with h1 | h2
    · exact hh rq h1
    · subst h2
      exact hhit.2
  · rw [drainSet_threads, drainSet_distances]
    exact hcard

theorem foldl_drainSet_threads :
    ∀ (l : List ℕ) (st : EngineState),
      (l.foldl drainSet st).threads = st.threads
  | [], st => rfl
  | s :: rest, st => by
    rw [List.foldl_cons, foldl_drainSet_threads rest, drainSet_threads]

theorem foldl_drainSet_distances :
    ∀ (l : List ℕ) (st : EngineState),
      (l.foldl drainSet st).distances = st.distances
  | [], st => rfl
  | s :: rest, st => by
    rw [List.foldl_cons, foldl_drainSet_distances rest, drainSet_distances]

theorem foldl_drainSet_pool :
    ∀ (l : List ℕ) (st : EngineState), (l.foldl drainSet st).pool = st.pool
  | [], st => rfl
  | s :: rest, st => by
    rw [List.foldl_cons, foldl_drainSet_pool rest, drainSet_pool]

theorem foldl_drainSet_inv (ls : ℕ) :
    ∀ (l : List ℕ) (st : EngineState), Inv ls st →
      Inv ls (l.foldl drainSet st)
  | [], st, h => h
  | s :: rest, st, h =>
    foldl_drainSet_inv ls rest (drainSet st s) (drainSet_inv ls st s h)

theorem drainAll_threads (cfg : EngineCfg) (st : EngineState) :
    (drainAll cfg st).threads = st.threads :=
  foldl_drainSet_threads _ st

theorem drainAll_distances (cfg : EngineCfg) (st : EngineState) :
    (drainAll cfg st).distances = st.distances :=
  foldl_drainSet_distances _ st

theorem drainAll_pool (cfg : EngineCfg) (st : EngineState) :
    (drainAll cfg st).pool = st.pool :=
  foldl_drainSet_pool _ st

theorem drainAll_inv (ls : ℕ) (cfg : EngineCfg) (st : EngineState)
    (h : Inv ls st) : Inv ls (drainAll cfg st) :=
  foldl_drainSet_inv ls _ st h

/-! ### `doThread` preservation lemmas -/

theorem distanceOf_INF (cfg : EngineCfg) (st : EngineState) (a : Access)
    (h : lookupD st.P (a.address / cfg.hardware.line_size) 0 = 0) :
    distanceOf cfg st a = INF := by
  simp [distanceOf, previousTimeOf, h]

theorem doThread_acc (cfg : EngineCfg) (snapshot : ℕ) (warpList : List ℕ)
    (tnum : ℕ) (c : WarpCtx) :
    (doThread cfg snapshot warpList tnum c).1.st.threads.map Thread.accesses =
      c.st.threads.map Thread.accesses := by
  simp only [doThread]
  by_cases hdone :
      (getThread c.st.threads (warpList.getD tnum 0)).is_done = true
  · rw [if_pos hdone]
  · rw [if_neg hdone]
    have hacc : ∀ v : Thread,
        v.accesses = (getThread c.st.threads (warpList.getD tnum 0)).accesses →
        (setThread c.st.threads (warpList.getD tnum 0) v).map Thread.accesses =
          c.st.threads.map Thread.accesses := fun v hv =>
      mapSet_eq Thread.accesses _ _ v (by rw [hv]; rfl)
    by_cases hw :
        ((getThread c.st.threads (warpList.getD tnum 0)).schedule.1).width = 0
    · rw [if_pos hw]
      exact hacc _ rfl
    · rw [if_neg hw]
      split
      · by_cases hb : cfg.num_mshr ≤ snapshot ∧ tnum = 0
        · rw [if_pos hb]
          show (setThread (setThread c.st.threads _ _) _ _).map _ = _
          rw [setThread, setThread, List.set_set]
          exact hacc _ rfl
        · rw [if_neg hb]
          exact hacc _ rfl
      · exact hacc _ rfl

theorem remWidth_set (ths : List Thread) (tid : ℕ) (v : Thread)
    (hlt : tid < ths.length) :
    remWidth (setThread ths tid v) + thRem (getThread ths tid) =
      remWidth ths + thRem v :=
  mapSumSet thRem ths tid v hlt

theorem setThread_setThread (ths : List Thread) (tid : ℕ) (a b : Thread) :
    setThread (setThread ths tid a) tid b = setThread ths tid b :=
  List.set_set a b ths tid

theorem setThread_getThread_self (ths : List Thread) (tid : ℕ)
    (hlt : tid < ths.length) :
    setThread ths tid (getThread ths tid) = ths :=
  setGetDSelf ths tid hlt

theorem thRem_schedule (t : Thread) (hpclt : t.pc < t.accesses.length) :
    thRem t = (if (t.schedule.1).width != 0 then 1 else 0) +
      thRem t.schedule.2 := by
  dsimp only [Thread.schedule]
  exact thRem_pcInc t hpclt

theorem thLines_schedule (ls : ℕ) (t : Thread)
    (hpclt : t.pc < t.accesses.length) :
    thLines ls t.schedule.2 = thLines ls t ++
      (if (t.schedule.1).width != 0
       then [(t.schedule.1).address / ls] else []) := by
  dsimp only [Thread.schedule]
  exact thLines_pcInc ls t hpclt

theorem doThread_q (cfg : EngineCfg) (snapshot : ℕ) (warpList : List ℕ)
    (tnum : ℕ) (c : WarpCtx)
    (hpc : ∀ t ∈ c.st.threads, t.pc ≤ t.accesses.length) :
    histTotal (doThread cfg snapshot warpList tnum c).1.st.distances +
      remWidth (doThread cfg snapshot warpList tnum c).1.st.threads =
      histTotal c.st.distances + remWidth c.st.threads := by
  simp only [doThread]
  by_cases hdone :
      (getThread c.st.threads (warpList.getD tnum 0)).is_done = true
  · rw [if_pos hdone]
  · rw [if_neg hdone]
    have hlt := getThread_lt _ _ hdone
    have htmem := getThread_mem c.st.threads (warpList.getD tnum 0) hlt
    have hpclt := pc_lt_of_not_done _ (hpc _ htmem) hdone
    have hsum := remWidth_set c.st.threads (warpList.getD tnum 0)
      ((getThread c.st.threads (warpList.getD tnum 0)).schedule.2) hlt
    by_cases hw :
        ((getThread c.st.threads (warpList.getD tnum 0)).schedule.1).width = 0
    · rw [if_pos hw]
      have hrem0 : thRem (getThread c.st.threads (warpList.getD tnum 0)) =
          thRem ((getThread c.st.threads (warpList.getD tnum 0)).schedule.2) := by
        rw [thRem_schedule _ hpclt,
          show (((getThread c.st.threads
              (warpList.getD tnum 0)).schedule.1).width != 0) = false by
            rw [bne_eq_false_iff_eq]; exact hw]
        simp
      dsimp only
      omega
    · rw [if_neg hw]
      have hrem1 : thRem (getThread c.st.threads (warpList.getD tnum 0)) =
          1 + thRem ((getThread c.st.threads
            (warpList.getD tnum 0)).schedule.2) := by
        rw [thRem_schedule _ hpclt,
          show (((getThread c.st.threads
              (warpList.getD tnum 0)).schedule.1).width != 0) = true by
            rw [bne_iff_ne]; exact hw]
        simp
      split
      · by_cases hb : cfg.num_mshr ≤ snapshot ∧ tnum = 0
        · rw [if_pos hb]
          dsimp only
          rw [setThread_setThread, schedule_unschedule_id,
            setThread_getThread_self c.st.threads (warpList.getD tnum 0) hlt]
        · rw [if_neg hb]
          dsimp only
          rw [histTotal_bump]
          omega
      · dsimp only
        rw [histTotal_bump]
        omega

theorem card_bump_le (L : List ℕ) (S' : Finset ℕ) (d : List (ℕ × ℕ))
    (la D : ℕ) (hS' : S' = L.toFinset ∪ {la})
    (hcard : L.toFinset.card ≤ compulsoryOf d)
    (hD : la ∉ L → D = INF) :
    S'.card ≤ compulsoryOf (bump d D) := by
  rw [compulsoryOf_bump, hS']
  by_cases hla : la ∈ L
  · have heq : L.toFinset ∪ {la} = L.toFinset := by
      rw [Finset.union_comm, ← Finset.insert_eq]
      exact Finset.insert_eq_self.mpr (List.mem_toFinset.mpr hla)
    rw [heq]
    by_cases hD' : D = INF
    · rw [if_pos hD']; omega
    · rw [if_neg hD']; omega
  · rw [hD hla, if_pos rfl]
    have hle : (L.toFinset ∪ {la}).card ≤ L.toFinset.card + 1 := by
      rw [Finset.union_comm, ← Finset.insert_eq]
      exact Finset.card_insert_le la L.toFinset
    omega

theorem doThread_inv (cfg : EngineCfg) (snapshot : ℕ) (warpList : List ℕ)
    (tnum : ℕ) (c : WarpCtx) (h : Inv cfg.hardware.line_size c.st) :
    Inv cfg.hardware.line_size (doThread cfg snapshot warpList tnum c).1.st := by
  obtain ⟨hpc, hP, hm, hh, hcard⟩ := h
  simp only [doThread]
  by_cases hdone :
      (getThread c.st.threads (warpList.getD tnum 0)).is_done = true
  · rw [if_pos hdone]
    exact ⟨hpc, hP, hm, hh, hcard⟩
  · rw [if_neg hdone]
    have hlt := getThread_lt _ _ hdone
    have htmem := getThread_mem c.st.threads (warpList.getD tnum 0) hlt
    have hpclt := pc_lt_of_not_done _ (hpc _ htmem) hdone
    have hpcLe2 : ∀ t ∈ setThread c.st.threads (warpList.getD tnum 0)
        ((getThread c.st.threads (warpList.getD tnum 0)).schedule.2),
        t.pc ≤ t.accesses.length := by
      apply pcLe_set _ _ _ hpc
      dsimp only [Thread.schedule]
      omega
    by_cases hw :
        ((getThread c.st.threads (warpList.getD tnum 0)).schedule.1).width = 0
    · rw [if_pos hw]
      have hplEq : prefLinesList cfg.hardware.line_size
          (setThread c.st.threads (warpList.getD tnum 0)
            ((getThread c.st.threads (warpList.getD tnum 0)).schedule.2)) =
          prefLinesList cfg.hardware.line_size c.st.threads := by
        apply prefLines_set_eq _ _ _ _ hlt
        rw [thLines_schedule _ _ hpclt,
          show (((getThread c.st.threads
              (warpList.getD tnum 0)).schedule.1).width != 0) = false by
            rw [bne_eq_false_iff_eq]; exact hw]
        simp
      refine ⟨hpcLe2, ?_, ?_, ?_, ?_⟩
      · intro a ha
        rw [hplEq]
        exact hP a ha
      · intro rq hrq
        rw [hplEq]
        exact hm rq hrq
      · intro rq hrq
        rw [hplEq]
        exact hh rq hrq
      · rw [hplEq]
        exact hcard
    · rw [if_neg hw]
      have hvline : thLines cfg.hardware.line_size
          ((getThread c.st.threads (warpList.getD tnum 0)).schedule.2) =
          thLines cfg.hardware.line_size
            (getThread c.st.threads (warpList.getD tnum 0)) ++
          [((getThread c.st.threads
            (warpList.getD tnum 0)).schedule.1).address /
              cfg.hardware.line_size] := by
        rw [thLines_schedule _ _ hpclt,
          show (((getThread c.st.threads
              (warpList.getD tnum 0)).schedule.1).width != 0) = true by
            rw [bne_iff_ne]; exact hw]
        simp
      have hext := prefLines_set_append cfg.hardware.line_size c.st.threads
        (warpList.getD tnum 0)
        ((getThread c.st.threads (warpList.getD tnum 0)).schedule.2)
        [((getThread c.st.threads (warpList.getD tnum 0)).schedule.1).address /
          cfg.hardware.line_size] hlt hvline
      have hplFin := prefLines_set_toFinset cfg.hardware.line_size
        c.st.threads (warpList.getD tnum 0)
        ((getThread c.st.threads (warpList.getD tnum 0)).schedule.2)
        (((getThread c.st.threads (warpList.getD tnum 0)).schedule.1).address /
          cfg.hardware.line_size) hlt hvline
      have hla_mem : ((getThread c.st.threads
          (warpList.getD tnum 0)).schedule.1).address /
            cfg.hardware.line_size ∈
          prefLinesList cfg.hardware.line_size
            (setThread c.st.threads (warpList.getD tnum 0)
              ((getThread c.st.threads (warpList.getD tnum 0)).schedule.2)) :=
        hext.2 _ (List.mem_singleton.mpr rfl)
      have hDINF : (((getThread c.st.threads
          (warpList.getD tnum 0)).schedule.1).address /
            cfg.hardware.line_size ∉
          prefLinesList cfg.hardware.line_size c.st.threads) →
          distanceOf cfg
            { c.st with
              threads := setThread c.st.threads (warpList.getD tnum 0)
                ((getThread c.st.threads (warpList.getD tnum 0)).schedule.2) }
            ((getThread c.st.threads (warpList.getD tnum 0)).schedule.1) =
            INF := by
        intro hnot
        apply distanceOf_INF
        by_contra h0
        exact hnot (hP _ h0)
      split
      · by_cases hb : cfg.num_mshr ≤ snapshot ∧ tnum = 0
        · rw [if_pos hb]
          dsimp only
          rw [setThread_setThread, schedule_unschedule_id,
            setThread_getThread_self c.st.threads (warpList.getD tnum 0) hlt]
          exact ⟨hpc, hP, hm, hh, hcard⟩
        · rw [if_neg hb]
          refine ⟨hpcLe2, ?_, ?_, ?_, ?_⟩
          · intro a ha
            exact hext.1 a (hP a ha)
          · intro rq hrq
            rcases List.mem_or_eq_of_mem_set hrq with h1 | h2
            · exact reqAddrsIn_mono _ _ _ (hm rq h1) hext.1
            · subst h2
              apply reqAddrsIn_add
              · exact reqAddrsIn_mono _ _ _
                  (reqAddrsIn_getD _ _ _ hm) hext.1
              · exact hla_mem
          · intro rq hrq
            exact reqAddrsIn_mono _ _ _ (hh rq hrq) hext.1
          · exact card_bump_le _ _ _ _ _ hplFin hcard hDINF
      · refine ⟨hpcLe2, ?_, ?_, ?_, ?_⟩
        · intro a ha
          exact hext.1 a (hP a ha)
        · intro rq hrq
          exact reqAddrsIn_mono _ _ _ (hm rq hrq) hext.1
        · intro rq hrq
          rcases List.mem_or_eq_of_mem_set hrq with h1 | h2
          · exact reqAddrsIn_mono _ _ _ (hh rq h1) hext.1
          · subst h2
            apply reqAddrsIn_add
            · exact reqAddrsIn_mono _ _ _
                (reqAddrsIn_getD _ _ _ hh) hext.1
            · exact hla_mem
        · exact card_bump_le _ _ _ _ _ hplFin hcard hDINF

/-! ### Composition of the engine invariants through the loops -/

theorem doThreadsFrom_spec (cfg : EngineCfg) (snapshot : ℕ)
    (warpList : List ℕ) :
    ∀ (idxs : List ℕ) (c : WarpCtx), Inv cfg.hardware.line_size c.st →
      Inv cfg.hardware.line_size
          (doThreadsFrom cfg snapshot warpList idxs c).st ∧
        histTotal (doThreadsFrom cfg snapshot warpList idxs c).st.distances +
          remWidth (doThreadsFrom cfg snapshot warpList idxs c).st.threads =
          histTotal c.st.distances + remWidth c.st.threads ∧
        (doThreadsFrom cfg snapshot warpList idxs
            c).st.threads.map Thread.accesses =
          c.st.threads.map Thread.accesses
  | [], c, h => ⟨h, rfl, rfl⟩
  | i :: rest, c, h => by
    simp only [doThreadsFrom]
    have h1 := doThread_inv cfg snapshot warpList i c h
    have h2 := doThread_q cfg snapshot warpList i c h.pcLe
    have h3 := doThread_acc cfg snapshot warpList i c
    by_cases hbr : (doThread cfg snapshot warpList i c).2 = true
    · rw [if_pos hbr]
      exact ⟨h1, h2, h3⟩
    · rw [if_neg hbr]
      obtain ⟨ih1, ih2, ih3⟩ := doThreadsFrom_spec cfg snapshot warpList rest
        (doThread cfg snapshot warpList i c).1 h1
      refine ⟨ih1, by omega, by rw [ih3, h3]⟩

theorem doPortion_spec (cfg : EngineCfg) (snapshot : ℕ) (warpList : List ℕ)
    (portions p : ℕ) (c : WarpCtx) (h : Inv cfg.hardware.line_size c.st) :
    Inv cfg.hardware.line_size
        (doPortion cfg snapshot warpList portions p c).st ∧
      histTotal (doPortion cfg snapshot warpList portions p c).st.distances +
        remWidth (doPortion cfg snapshot warpList portions p c).st.threads =
        histTotal c.st.distances + remWidth c.st.threads ∧
      (doPortion cfg snapshot warpList portions p
          c).st.threads.map Thread.accesses =
        c.st.threads.map Thread.accesses := by
  obtain ⟨ih1, ih2, ih3⟩ := doThreadsFrom_spec cfg snapshot warpList
    (portionIdxs cfg.hardware.warp_size portions p warpList.length) c h
  simp only [doPortion]
  refine ⟨drainAll_inv _ cfg _ ih1, ?_, ?_⟩
  · rw [drainAll_distances, drainAll_threads]
    omega
  · rw [drainAll_threads]
    exact ih3

theorem foldl_doPortion_spec (cfg : EngineCfg) (snapshot : ℕ)
    (warpList : List ℕ) (portions : ℕ) :
    ∀ (ps : List ℕ) (c : WarpCtx), Inv cfg.hardware.line_size c.st →
      Inv cfg.hardware.line_size
          (ps.foldl (fun c p => doPortion cfg snapshot warpList portions p c)
            c).st ∧
        histTotal (ps.foldl
            (fun c p => doPortion cfg snapshot warpList portions p c)
            c).st.distances +
          remWidth (ps.foldl
            (fun c p => doPortion cfg snapshot warpList portions p c)
            c).st.threads =
          histTotal c.st.distances + remWidth c.st.threads ∧
        (ps.foldl (fun c p => doPortion cfg snapshot warpList portions p c)
            c).st.threads.map Thread.accesses =
          c.st.threads.map Thread.accesses
  | [], c, h => ⟨h, rfl, rfl⟩
  | p :: rest, c, h => by
    simp only [List.foldl_cons]
    obtain ⟨h1, h2, h3⟩ := doPortion_spec cfg snapshot warpList portions p c h
    obtain ⟨ih1, ih2, ih3⟩ := foldl_doPortion_spec cfg snapshot warpList
      portions rest (doPortion cfg snapshot warpList portions p c) h1
    exact ⟨ih1, by omega, by rw [ih3, h3]⟩

theorem doWarp_spec (cfg : EngineCfg) (snapshot : ℕ) (st : EngineState)
    (h : Inv cfg.hardware.line_size st) :
    Inv cfg.hardware.line_size (doWarp cfg snapshot st) ∧
      histTotal (doWarp cfg snapshot st).distances +
        remWidth (doWarp cfg snapshot st).threads =
        histTotal st.distances + remWidth st.threads ∧
      (doWarp cfg snapshot st).threads.map Thread.accesses =
        st.threads.map Thread.accesses := by
  simp only [doWarp]
  have hpool : Inv cfg.hardware.line_size
      { st with pool := st.pool.take_warp.2 } :=
    ⟨h.pcLe, h.psub, h.msub, h.hsub, h.card⟩
  obtain ⟨ih1, ih2, ih3⟩ := foldl_doPortion_spec cfg snapshot _ _
    (List.range (max 1
      ((getThread ({ st with pool := st.pool.take_warp.2 }).threads
        ((cfg.warps.getD st.pool.take_warp.1 []).getD 0 0)).get_bytes / 4)))
    ⟨{ st with pool := st.pool.take_warp.2 }, 0, 0⟩ hpool
  split
  · exact ⟨⟨ih1.pcLe, ih1.psub, ih1.msub, ih1.hsub, ih1.card⟩, ih2, ih3⟩
  · exact ⟨⟨ih1.pcLe, ih1.psub, ih1.msub, ih1.hsub, ih1.card⟩, ih2, ih3⟩

theorem tick_spec (cfg : EngineCfg) (st : EngineState)
    (h : Inv cfg.hardware.line_size st) :
    Inv cfg.hardware.line_size (tick cfg st) ∧
      histTotal (tick cfg st).distances + remWidth (tick cfg st).threads =
        histTotal st.distances + remWidth st.threads ∧
      (tick cfg st).threads.map Thread.accesses =
        st.threads.map Thread.accesses := by
  simp only [tick]
  by_cases hwork : st.pool.has_work = true
  · rw [if_pos hwork]
    obtain ⟨h1, h2, h3⟩ := doWarp_spec cfg (mshrSnapshot cfg st) st h
    have h4 := drainAll_inv cfg.hardware.line_size cfg _ h1
    refine ⟨⟨h4.pcLe, h4.psub, h4.msub, h4.hsub, h4.card⟩, ?_, ?_⟩
    · rw [drainAll_distances, drainAll_threads]
      omega
    · rw [drainAll_threads]
      exact h3
  · rw [if_neg hwork]
    have h4 := drainAll_inv cfg.hardware.line_size cfg st h
    refine ⟨⟨h4.pcLe, h4.psub, h4.msub, h4.hsub, h4.card⟩, ?_, ?_⟩
    · rw [drainAll_distances, drainAll_threads]
    · rw [drainAll_threads]

theorem runPool_spec (cfg : EngineCfg) :
    ∀ (fuel : ℕ) (st : EngineState), Inv cfg.hardware.line_size st →
      Inv cfg.hardware.line_size (runPool cfg fuel st) ∧
        histTotal (runPool cfg fuel st).distances +
          remWidth (runPool cfg fuel st).threads =
          histTotal st.distances + remWidth st.threads ∧
        (runPool cfg fuel st).threads.map Thread.accesses =
          st.threads.map Thread.accesses
  | 0, st, h => ⟨h, rfl, rfl⟩
  | fuel + 1, st, h => by
    simp only [runPool]
    by_cases hdone : st.pool.is_done = true
    · rw [if_pos hdone]
      exact ⟨h, rfl, rfl⟩
    · rw [if_neg hdone]
      obtain ⟨h1, h2, h3⟩ := tick_spec cfg st h
      obtain ⟨ih1, ih2, ih3⟩ := runPool_spec cfg fuel (tick cfg st) h1
      exact ⟨ih1, by omega, by rw [ih3, h3]⟩

theorem initWindow_spec (cfg : EngineCfg) (snum : ℕ) (st : EngineState)
    (h : Inv cfg.hardware.line_size st) :
    Inv cfg.hardware.line_size (initWindow cfg snum st) ∧
      (initWindow cfg snum st).distances = st.distances ∧
      (initWindow cfg snum st).threads = st.threads := by
  refine ⟨⟨h.pcLe, h.psub, ?_, ?_, h.card⟩, rfl, rfl⟩
  · intro rq hrq
    have : rq = Requests.init := by
      have := List.eq_of_mem_replicate hrq
      exact this
    subst this
    exact reqAddrsIn_init _
  · intro rq hrq
    have : rq = Requests.init := by
      have := List.eq_of_mem_replicate hrq
      exact this
    subst this
    exact reqAddrsIn_init _

theorem thLines_reset (ls : ℕ) (t : Thread) :
    thLines ls (Thread.reset t) = [] := by
  simp [thLines, Thread.reset]

theorem prefLines_reset (ls : ℕ) (ths : List Thread) :
    prefLinesList ls (ths.map Thread.reset) = [] := by
  induction ths with
  | nil => rfl
  | cons t rest ih =>
    simp only [prefLinesList, List.map_cons, List.flatten_cons,
      thLines_reset, List.nil_append] at *
    exact ih

theorem thRem_reset (t : Thread) : thRem (Thread.reset t) = thWidth t := by
  simp [thRem, Thread.reset, thWidth]

theorem remWidth_reset (ths : List Thread) :
    remWidth (ths.map Thread.reset) = widthCount ths := by
  simp only [remWidth, widthCount, List.map_map]
  exact congrArg List.sum (List.map_congr_left (fun t _ => thRem_reset t))

theorem accesses_reset (ths : List Thread) :
    (ths.map Thread.reset).map Thread.accesses = ths.map Thread.accesses := by
  rw [List.map_map]
  exact List.map_congr_left (fun t _ => rfl)

theorem engineInit_inv (cfg : EngineCfg) (ths : List Thread)
    (dist0 : List (ℕ × ℕ)) :
    Inv cfg.hardware.line_size (engineInit cfg ths dist0) := by
  refine ⟨?_, ?_, ?_, ?_, ?_⟩
  · intro t ht
    simp only [engineInit] at ht
    obtain ⟨s, _, rfl⟩ := List.mem_map.1 ht
    exact Nat.zero_le _
  · intro a ha
    exact absurd rfl ha
  · intro rq hrq
    exact absurd hrq (List.not_mem_nil rq)
  · intro rq hrq
    exact absurd hrq (List.not_mem_nil rq)
  · rw [show (engineInit cfg ths dist0).threads = ths.map Thread.reset
      from rfl, prefLines_reset]
    simp

theorem foldl_window_spec (cfg : EngineCfg) (fuel : ℕ) :
    ∀ (ws : List ℕ) (st : EngineState), Inv cfg.hardware.line_size st →
      Inv cfg.hardware.line_size
          (ws.foldl (fun st snum => runPool cfg fuel (initWindow cfg snum st))
            st) ∧
        histTotal (ws.foldl
            (fun st snum => runPool cfg fuel (initWindow cfg snum st))
            st).distances +
          remWidth (ws.foldl
            (fun st snum => runPool cfg fuel (initWindow cfg snum st))
            st).threads =
          histTotal st.distances + remWidth st.threads ∧
        (ws.foldl (fun st snum => runPool cfg fuel (initWindow cfg snum st))
            st).threads.map Thread.accesses =
          st.threads.map Thread.accesses
  | [], st, h => ⟨h, rfl, rfl⟩
  | w :: rest, st, h => by
    simp only [List.foldl_cons]
    obtain ⟨i1, i2, i3⟩ := initWindow_spec cfg w st h
    obtain ⟨r1, r2, r3⟩ := runPool_spec cfg fuel (initWindow cfg w st) i1
    obtain ⟨ih1, ih2, ih3⟩ := foldl_window_spec cfg fuel rest
      (runPool cfg fuel (initWindow cfg w st)) r1
    rw [i2, i3] at r2
    rw [i3] at r3
    exact ⟨ih1, by omega, by rw [ih3, r3]⟩

theorem engineRun_spec (cfg : EngineCfg) (fuel : ℕ) (ths : List Thread)
    (dist0 : List (ℕ × ℕ)) :
    Inv cfg.hardware.line_size (engineRun cfg fuel ths dist0) ∧
      histTotal (engineRun cfg fuel ths dist0).distances +
        remWidth (engineRun cfg fuel ths dist0).threads =
        histTotal dist0 + widthCount ths ∧
      (engineRun cfg fuel ths dist0).threads.map Thread.accesses =
        ths.map Thread.accesses := by
  obtain ⟨h1, h2, h3⟩ := foldl_window_spec cfg fuel
    (List.range (ceilDiv cfg.core.length cfg.active_blocks))
    (engineInit cfg ths dist0) (engineInit_inv cfg ths dist0)
  rw [show (engineInit cfg ths dist0).threads = ths.map Thread.reset
    from rfl, remWidth_reset] at h2
  rw [show (engineInit cfg ths dist0).threads = ths.map Thread.reset
    from rfl, accesses_reset] at h3
  exact ⟨h1, h2, h3⟩

theorem thRem_done (t : Thread) (h : t.is_done = true) : thRem t = 0 := by
  have hpc : t.pc = t.accesses.length := by
    simpa [Thread.is_done] using h
  simp [thRem, hpc, List.drop_length]

theorem remWidth_done (ths : List Thread) (hd : allDone ths = true) :
    remWidth ths = 0 := by
  simp only [remWidth]
  apply List.sum_eq_zero
  intro x hx
  obtain ⟨t, ht, rfl⟩ := List.mem_map.1 hx
  exact thRem_done t (List.all_eq_true.mp hd t ht)

theorem thLines_done (ls : ℕ) (t : Thread) (h : t.is_done = true) :
    thLines ls t = thAllLines ls t := by
  have hpc : t.pc = t.accesses.length := by
    simpa [Thread.is_done] using h
  simp [thLines, thAllLines, hpc, List.take_length]

theorem prefLines_done (ls : ℕ) (ths : List Thread)
    (hd : allDone ths = true) :
    prefLinesList ls ths = touchedLinesList ls ths := by
  simp only [prefLinesList, touchedLinesList]
  congr 1
  exact List.map_congr_left
    (fun t ht => thLines_done ls t (List.all_eq_true.mp hd t ht))

theorem touchedLines_congr (ls : ℕ) (ths1 ths2 : List Thread)
    (h : ths1.map Thread.accesses = ths2.map Thread.accesses) :
    touchedLinesList ls ths1 = touchedLinesList ls ths2 := by
  have key : ∀ ths : List Thread, ths.map (thAllLines ls) =
      (ths.map Thread.accesses).map (fun accs =>
        (accs.filter (fun a => a.width != 0)).map
          (fun a => a.address / ls)) := by
    intro ths
    rw [List.map_map]
    exact List.map_congr_left (fun t _ => rfl)
  simp only [touchedLinesList]
  rw [key, key, h]

/-! ### Phase 1: the grand total counts straddling accesses twice -/

theorem length_incAt (l : List ℕ) (i : ℕ) : (incAt l i).length = l.length :=
  List.length_set l i _

theorem sum_incAt : ∀ (l : List ℕ) (i : ℕ), i < l.length →
    (incAt l i).sum = l.sum + 1
  | a :: t, 0, _ => by
    simp only [incAt, List.getD_cons_zero, List.set_cons_zero, List.sum_cons]
    omega
  | a :: t, i + 1, h => by
    have ih := sum_incAt t i (by simpa using h)
    simp only [incAt, List.getD_cons_succ, List.set_cons_succ,
      List.sum_cons] at ih ⊢
    omega

theorem accessSetOf_lt (cfg : EngineCfg) (a : Access)
    (hs : 0 < cfg.cache_sets) : accessSetOf cfg a < cfg.cache_sets :=
  Nat.mod_lt _ hs

theorem phase1Step_spec (cfg : EngineCfg) (hs : 0 < cfg.cache_sets)
    (counts : List ℕ) (a : Access) (hlen : counts.length = cfg.cache_sets) :
    (phase1Step cfg counts a).length = cfg.cache_sets ∧
      (phase1Step cfg counts a).sum = counts.sum +
        (if (a.width != 0) = true then 1 else 0) +
        (if (a.width != 0 && a.address / cfg.hardware.line_size !=
            a.end_address / cfg.hardware.line_size) = true
         then 1 else 0) := by
  by_cases hw : a.width = 0
  · have h1 : phase1Step cfg counts a = counts := by
      simp [phase1Step, hw]
    rw [h1]
    simp [hw, hlen]
  · have hb : (a.width != 0) = true := bne_iff_ne.mpr hw
    by_cases hstr : a.address / cfg.hardware.line_size =
        a.end_address / cfg.hardware.line_size
    · have h1 : phase1Step cfg counts a = incAt counts (accessSetOf cfg a) := by
        simp [phase1Step, hw, hstr]
      have hb2 : (a.width != 0 && a.address / cfg.hardware.line_size !=
          a.end_address / cfg.hardware.line_size) = false := by
        rw [hstr]
        simp
      rw [h1, hb2, hb]
      refine ⟨by rw [length_incAt, hlen], ?_⟩
      rw [sum_incAt counts _ (by rw [hlen]; exact accessSetOf_lt cfg a hs)]
      simp
    · have h1 : phase1Step cfg counts a =
          incAt (incAt counts (accessSetOf cfg a))
            (line_addr_to_set (a.end_address / cfg.hardware.line_size)
              a.end_address cfg.cache_sets
              (cfg.cache_sets * cfg.cache_ways * cfg.hardware.line_size)) := by
        simp [phase1Step, hw, hstr]
      have hb2 : (a.width != 0 && a.address / cfg.hardware.line_size !=
          a.end_address / cfg.hardware.line_size) = true := by
        rw [hb, Bool.true_and]
        exact bne_iff_ne.mpr hstr
      rw [h1, hb2, hb]
      have hl1 : (incAt counts (accessSetOf cfg a)).length = cfg.cache_sets := by
        rw [length_incAt, hlen]
      refine ⟨by rw [length_incAt, hl1], ?_⟩
      rw [sum_incAt _ _ (by rw [hl1]; exact Nat.mod_lt _ hs),
        sum_incAt counts _ (by rw [hlen]; exact accessSetOf_lt cfg a hs)]
      simp

theorem phase1fold_spec (cfg : EngineCfg) (hs : 0 < cfg.cache_sets) :
    ∀ (accs : List Access) (counts : List ℕ),
      counts.length = cfg.cache_sets →
      (accs.foldl (phase1Step cfg) counts).length = cfg.cache_sets ∧
        (accs.foldl (phase1Step cfg) counts).sum = counts.sum +
          (accs.filter (fun a => a.width != 0)).length +
          (accs.filter (fun a => a.width != 0 &&
            a.address / cfg.hardware.line_size !=
              a.end_address / cfg.hardware.line_size)).length
  | [], counts, hlen => ⟨hlen, by simp⟩
  | a :: rest, counts, hlen => by
    obtain ⟨s1, s2⟩ := phase1Step_spec cfg hs counts a hlen
    obtain ⟨ih1, ih2⟩ := phase1fold_spec cfg hs rest
      (phase1Step cfg counts a) s1
    refine ⟨by simpa using ih1, ?_⟩
    simp only [List.foldl_cons, List.filter_cons]
    rw [ih2, s2]
    by_cases hb : (a.width != 0) = true
    · by_cases hb2 : (a.width != 0 && a.address / cfg.hardware.line_size !=
          a.end_address / cfg.hardware.line_size) = true
      · rw [if_pos hb, if_pos hb2, if_pos hb, if_pos hb2]
        simp only [List.length_cons]
        omega
      · rw [if_pos hb, if_neg hb2, if_pos hb, if_neg hb2]
        simp only [List.length_cons]
        omega
    · have hb2 : ¬ (a.width != 0 && a.address / cfg.hardware.line_size !=
          a.end_address / cfg.hardware.line_size) = true := by
        simp only [Bool.and_eq_true, not_and]
        intro hcon
        exact absurd hcon hb
      rw [if_neg hb, if_neg hb2, if_neg hb, if_neg hb2]
      omega

theorem phase1Thread_spec (cfg : EngineCfg) (hs : 0 < cfg.cache_sets)
    (counts : List ℕ) (t : Thread) (hlen : counts.length = cfg.cache_sets)
    (hpc : t.pc = 0) :
    (phase1Thread cfg counts t).length = cfg.cache_sets ∧
      (phase1Thread cfg counts t).sum =
        counts.sum + thWidth t + thStraddle cfg.hardware.line_size t := by
  obtain ⟨h1, h2⟩ := phase1fold_spec cfg hs (t.accesses.drop t.pc) counts hlen
  rw [hpc, List.drop_zero] at h1 h2
  refine ⟨?_, ?_⟩
  · rw [show phase1Thread cfg counts t =
      (t.accesses.drop t.pc).foldl (phase1Step cfg) counts from rfl, hpc,
      List.drop_zero]
    exact h1
  · rw [show phase1Thread cfg counts t =
      (t.accesses.drop t.pc).foldl (phase1Step cfg) counts from rfl, hpc,
      List.drop_zero, h2]
    rfl

theorem phase1Counts_fold (cfg : EngineCfg) (hs : 0 < cfg.cache_sets) :
    ∀ (ths : List Thread) (counts : List ℕ),
      counts.length = cfg.cache_sets → (∀ t ∈ ths, t.pc = 0) →
      (ths.foldl (phase1Thread cfg) counts).length = cfg.cache_sets ∧
        (ths.foldl (phase1Thread cfg) counts).sum =
          counts.sum + widthCount ths + straddleCount cfg ths
  | [], counts, hlen, _ => ⟨hlen, by simp [widthCount, straddleCount]⟩
  | t :: rest, counts, hlen, hpc => by
    obtain ⟨s1, s2⟩ := phase1Thread_spec cfg hs counts t hlen
      (hpc t (List.mem_cons_self t rest))
    obtain ⟨ih1, ih2⟩ := phase1Counts_fold cfg hs rest
      (phase1Thread cfg counts t)
      s1 (fun u hu => hpc u (List.mem_cons_of_mem t hu))
    refine ⟨by simpa using ih1, ?_⟩
    simp only [List.foldl_cons]
    rw [ih2, s2]
    simp only [widthCount, straddleCount, List.map_cons, List.sum_cons]
    omega

theorem grandTotal_eq (cfg : EngineCfg) (ths : List Thread)
    (hs : 0 < cfg.cache_sets) (hpc : ∀ t ∈ ths, t.pc = 0) :
    grandTotalOf cfg ths = widthCount ths + straddleCount cfg ths := by
  obtain ⟨_, h2⟩ := phase1Counts_fold cfg hs ths
    (List.replicate cfg.cache_sets 0) (List.length_replicate _ _) hpc
  rw [grandTotalOf, phase1Counts, h2]
  simp

/-- C3: the spec claims the sanity check compares the grand total with the
sum of the histogram frequencies and that the two agree for a completed
run.  In fact Phase 1 counts an access that straddles a cache-line
boundary into *two* sets while Phase 3 records exactly one distance for
it, so for a completed run `Σ freq + straddleCount = grand_total`: the
sanity check succeeds iff no enabled access straddles a line boundary. -/
theorem C3_histogram_total (cfg : EngineCfg) (fuel : ℕ) (ths : List Thread)
    (hs : 0 < cfg.cache_sets) (hpc : ∀ t ∈ ths, t.pc = 0)
    (hdone : allDone (engineRun cfg fuel ths []).threads = true) :
    histTotal (engineRun cfg fuel ths []).distances + straddleCount cfg ths =
      grandTotalOf cfg ths ∧
      ((reuseDistance cfg fuel ths []).sanity = true ↔
        straddleCount cfg ths = 0) := by
  obtain ⟨_, h2, _⟩ := engineRun_spec cfg fuel ths []
  have hrw : remWidth (engineRun cfg fuel ths []).threads = 0 :=
    remWidth_done _ hdone
  have hgt := grandTotal_eq cfg ths hs hpc
  have hist : histTotal (engineRun cfg fuel ths []).distances =
      widthCount ths := by
    have h0 : histTotal ([] : List (ℕ × ℕ)) = 0 := rfl
    omega
  constructor
  · omega
  · rw [show (reuseDistance cfg fuel ths []).sanity =
      (grandTotalOf cfg ths ==
        histTotal (engineRun cfg fuel ths []).distances) from rfl,
      beq_iff_eq, hist, hgt]
    omega

/-- C5: the spec claims the compulsory misses equal the number of distinct
cache lines touched by the trace.  A line re-accessed before its first
request completes yields a second `INF` distance, so only the inequality
`#distinct lines ≤ compulsory` holds for a completed run. -/
theorem C5_compulsory_lower_bound (cfg : EngineCfg) (fuel : ℕ)
    (ths : List Thread)
    (hdone : allDone (engineRun cfg fuel ths []).threads = true) :
    (touchedLinesList cfg.hardware.line_size ths).toFinset.card ≤
      compulsoryOf (engineRun cfg fuel ths []).distances := by
  obtain ⟨h1, _, h3⟩ := engineRun_spec cfg fuel ths []
  have e1 := prefLines_done cfg.hardware.line_size
    (engineRun cfg fuel ths []).threads hdone
  have e2 := touchedLines_congr cfg.hardware.line_size
    (engineRun cfg fuel ths []).threads ths h3
  have hc := h1.card
  rw [e1, e2] at hc
  exact hc

/-- C3 counterexample: a completed run of a trace with one straddling
access has grand total 2 but histogram total 1, and the sanity check
fails. -/
theorem C3_sanity_counterexample :
    allDone (engineRun c3cfg 4 c3threads []).threads = true ∧
      grandTotalOf c3cfg c3threads = 2 ∧
      histTotal (engineRun c3cfg 4 c3threads []).distances = 1 ∧
      (reuseDistance c3cfg 4 c3threads []).sanity = false := by
  decide

theorem C3_histogram_total_witness :
    (0 < c3cfg.cache_sets ∧ (∀ t ∈ c3threads, t.pc = 0) ∧
        allDone (engineRun c3cfg 4 c3threads []).threads = true) ∧
      (histTotal (engineRun c3cfg 4 c3threads []).distances +
          straddleCount c3cfg c3threads = grandTotalOf c3cfg c3threads ∧
        ((reuseDistance c3cfg 4 c3threads []).sanity = true ↔
          straddleCount c3cfg c3threads = 0)) :=
  ⟨⟨by decide, by decide, by decide⟩,
    C3_histogram_total c3cfg 4 c3threads (by decide) (by decide) (by decide)⟩

/-- C5 counterexample: a completed run touching a single distinct line
records two compulsory misses, because the line is accessed again before
the first request has completed. -/
theorem C5_compulsory_counterexample :
    allDone (engineRun c5cfg 4 c5threads []).threads = true ∧
      (touchedLinesList c5cfg.hardware.line_size c5threads).toFinset.card =
        1 ∧
      compulsoryOf (engineRun c5cfg 4 c5threads []).distances = 2 := by
  decide

theorem C5_compulsory_lower_bound_witness :
    allDone (engineRun c5cfg 4 c5threads []).threads = true ∧
      (touchedLinesList c5cfg.hardware.line_size c5threads).toFinset.card ≤
        compulsoryOf (engineRun c5cfg 4 c5threads []).distances :=
  ⟨by decide, C5_compulsory_lower_bound c5cfg 4 c5threads (by decide)⟩

/-- C2 counterexample: with a single MSHR, the first warp pass issues two
miss requests in one tick (the stale snapshot `0` is checked only for the
first thread), and the violation persists on the next tick. -/
theorem C2_mshr_counterexample :
    c2cfg.num_mshr = 1 ∧
      mshrSnapshot c2cfg (engineRun c2cfg 1 c2threads []) = 2 ∧
      mshrSnapshot c2cfg (engineRun c2cfg 2 c2threads []) = 2 := by
  decide

/-- C2: the spec claims the MSHR check keeps the number of in-flight miss
addresses at most `num_mshr` at all times.  That bound is violated (see the
counterexample); what the code does is a stall: when the snapshot has
reached `num_mshr` and the *first* thread of the processed warp portion has
a pending enabled miss, the portion breaks immediately, no request is
issued and the thread state is left exactly as it was (the access is
retried when the warp is rescheduled). -/
theorem C2_backpressure_stall (cfg : EngineCfg) (snapshot : ℕ)
    (warpList : List ℕ) (c : WarpCtx)
    (hsn : cfg.num_mshr ≤ snapshot)
    (hnd : (getThread c.st.threads (warpList.getD 0 0)).is_done = false)
    (hw : ((getThread c.st.threads (warpList.getD 0 0)).schedule.1).width ≠ 0)
    (hmiss : cfg.cache_ways ≤ distanceOf cfg
      { c.st with
        threads := setThread c.st.threads (warpList.getD 0 0)
          ((getThread c.st.threads (warpList.getD 0 0)).schedule.2) }
      ((getThread c.st.threads (warpList.getD 0 0)).schedule.1)) :
    (doThread cfg snapshot warpList 0 c).2 = true ∧
      (doThread cfg snapshot warpList 0 c).1.st.threads = c.st.threads ∧
      (doThread cfg snapshot warpList 0 c).1.st.requests_miss =
        c.st.requests_miss := by
  have hlt : warpList.getD 0 0 < c.st.threads.length :=
    getThread_lt _ _ (by rw [hnd]; exact Bool.false_ne_true)
  simp only [doThread, hnd, Bool.false_eq_true, if_false]
  rw [if_neg hw, if_pos hmiss, if_pos ⟨hsn, trivial⟩]
  refine ⟨rfl, ?_, rfl⟩
  dsimp only
  rw [setThread_setThread, schedule_unschedule_id,
    setThread_getThread_self _ _ hlt]

theorem C2_backpressure_stall_witness :
    (c2cfg.num_mshr ≤ mshrSnapshot c2cfg c2st1 ∧
        (getThread c2st1.threads (([0, 1] : List ℕ).getD 0 0)).is_done =
          false ∧
        ((getThread c2st1.threads
            (([0, 1] : List ℕ).getD 0 0)).schedule.1).width ≠ 0 ∧
        c2cfg.cache_ways ≤ distanceOf c2cfg
          { c2st1 with
            threads := setThread c2st1.threads (([0, 1] : List ℕ).getD 0 0)
              ((getThread c2st1.threads
                (([0, 1] : List ℕ).getD 0 0)).schedule.2) }
          ((getThread c2st1.threads
            (([0, 1] : List ℕ).getD 0 0)).schedule.1)) ∧
      ((doThread c2cfg (mshrSnapshot c2cfg c2st1) [0, 1] 0
          ⟨c2st1, 0, 0⟩).2 = true ∧
        (doThread c2cfg (mshrSnapshot c2cfg c2st1) [0, 1] 0
          ⟨c2st1, 0, 0⟩).1.st.threads = c2st1.threads ∧
        (doThread c2cfg (mshrSnapshot c2cfg c2st1) [0, 1] 0
          ⟨c2st1, 0, 0⟩).1.st.requests_miss = c2st1.requests_miss) :=
  ⟨⟨by decide, by decide, by decide, by decide⟩,
    C2_backpressure_stall c2cfg (mshrSnapshot c2cfg c2st1) [0, 1]
      ⟨c2st1, 0, 0⟩ (by decide) (by decide) (by decide) (by decide)⟩

end GpuCache
